import Mathlib

/-!
A shallow embedding of the minesweeper board/cell engine (`minesweeper.py`)
together with theorems checking the natural-language specification against it.

Conventions of the embedding:
* Python cell display values map to the inductive `View`:
  the string O (hidden) to `View.O`, M (flag) to `View.M`, X (detonated) to
  `View.X`, the empty string (revealed blank) to `View.blank`, and a revealed
  adjacency number n to `View.num n`.
* `Cell.value` is an `Int`: -1 marks a mine, otherwise it is the running
  adjacency count.  The Python branch testing `value == 'M'` compares the
  integer field against a string and can never succeed on any reachable cell,
  so it has no counterpart here.
* Python truthiness of a view is `View.truthy` (only the empty string and the
  integer 0 are falsy).
* The grid dictionary, keyed by exactly the in-range positions, becomes a
  total function `Pos -> Cell` guarded by `inRange`; a missing-key `KeyError`
  on `board[tup]` becomes the explicit `Err.OutOfRange` result.
* The recursive cascade `_traverse_empty` is embedded with explicit fuel
  `d * d + 1`; the completeness theorems show this fuel suffices on the
  states they speak about.
* The random mine draws of `Board.__init__` are abstracted into an explicit
  list of distinct in-range positions (`Board.placeMines`), one entry per
  accepted draw, exactly as rejection sampling produces them.
-/

/-- A grid position, `(row, col)`, as in the Python tuples. -/
abbrev Pos := Int × Int

/-- The display value of a cell, mirroring the Python strings and ints. -/
inductive View where
  | O
  | M
  | X
  | blank
  | num (n : Int)
  deriving DecidableEq

/-- Python truthiness of a view value: the empty string and the integer 0 are
falsy, every other reachable view value is truthy. -/
def View.truthy : View → Bool
  | .blank => false
  | .num n => decide (n ≠ 0)
  | _ => true

/-- One plot of land in the mine field, as in class `Cell`. -/
structure Cell where
  value : Int
  view : View
  ir : Int
  jr : Int
  deriving DecidableEq

/-- The per-axis edge class stored in `Cell.ir` and `Cell.jr`:
Python computes `1 if x == d - 1 else bool(x) - 1`. -/
def edgeClass (d : Nat) (x : Int) : Int :=
  if x = (d : Int) - 1 then 1 else if x = 0 then -1 else 0

/-- `Cell.__init__` with the default `value=0`, `view='O'`. -/
def Cell.init (d : Nat) (i j : Int) : Cell :=
  { value := 0, view := View.O, ir := edgeClass d i, jr := edgeClass d j }

/-- `Cell.update_view(mark)`: returns the updated cell together with the
Python return value (`none` for None, `some false` for False,
`some true` for True), following the source branch order.  The branch
`elif self.value == 'M'` of the source compares the integer `value` field
with a string and is therefore never taken. -/
def Cell.update_view (c : Cell) (mark : Bool) : Cell × Option Bool :=
  if mark then ({ c with view := View.M }, none)
  else if c.value < 0 then ({ c with view := View.X }, some false)
  else if c.value ≠ 0 then ({ c with view := View.num c.value }, none)
  else if c.view.truthy then ({ c with view := View.blank }, some true)
  else (c, none)

/-- The error raised when a position misses the grid dictionary
(`KeyError` in Python, named `OutOfRange` by the specification). -/
inductive Err where
  | OutOfRange
  deriving DecidableEq

/-- Membership of a position in the grid dictionary: the keys are exactly
the pairs `(i, j)` with `0 ≤ i, j < d`. -/
def inRange (d : Nat) (p : Pos) : Prop :=
  0 ≤ p.1 ∧ p.1 < (d : Int) ∧ 0 ≤ p.2 ∧ p.2 < (d : Int)

instance (d : Nat) (p : Pos) : Decidable (inRange d p) := by
  unfold inRange; infer_instance

/-- The insertion-ordered key list of the grid dictionary. -/
def posList (d : Nat) : List Pos :=
  (List.range d).flatMap fun i => (List.range d).map fun j => (Int.ofNat i, Int.ofNat j)

/-- The mine field, as in class `Board`.  `bomb` is the mine count,
`left` the displayed remaining-mines counter (`self.left`). -/
structure Board where
  d : Nat
  diff : Nat
  grid : Pos → Cell
  bomb : Nat
  left : Int

/-- Replace one cell of the grid (`self[tup] = val` / in-place mutation). -/
def Board.setCell (b : Board) (p : Pos) (c : Cell) : Board :=
  { b with grid := fun q => if q = p then c else b.grid q }

/-- The `_ranges` table of offset lists, keyed by edge class. -/
def offsetRange (r : Int) : List Int :=
  if r = -1 then [0, 1] else if r = 1 then [-1, 0] else [-1, 0, 1]

/-- `Board._iter_neighbors(tup)`: all in-class offsets of `tup`, skipping the
cell itself and any mine.  The generator only reads `value` fields, which no
caller mutates while iterating, so the eager list is faithful. -/
def Board.iter_neighbors (b : Board) (tup : Pos) : List Pos :=
  (offsetRange (b.grid tup).ir).flatMap fun k =>
    (offsetRange (b.grid tup).jr).flatMap fun l =>
      let x := tup.1 + k
      let y := tup.2 + l
      if (b.grid (x, y)).value < 0 ∨ tup = (x, y) then [] else [(x, y)]

/-- The loop body of `Board._increment`. -/
def incStep (acc : Board) (xy : Pos) : Board :=
  acc.setCell xy { acc.grid xy with value := (acc.grid xy).value + 1 }

/-- `Board._increment(tup)`: add one to each non-mine neighbor's value. -/
def Board.increment (b : Board) (tup : Pos) : Board :=
  (b.iter_neighbors tup).foldl incStep b

/-- The count used by `Board.won`: cells with `value < 0` and view M. -/
def flaggedMineCount (b : Board) : Nat :=
  ((posList b.d).filter fun p =>
    decide ((b.grid p).value < 0 ∧ (b.grid p).view = View.M)).length

/-- `Board.won()`: `some true` when every mine is flagged, else `none`. -/
def Board.won (b : Board) : Option Bool :=
  if flaggedMineCount b = b.bomb then some true else none

/-- The body of the neighbor loop of `_traverse_empty`: reveal one neighbor
and record it when its update returned True. -/
def traverseStep (acc : Board × List Pos) (ij : Pos) : Board × List Pos :=
  let u := (acc.1.grid ij).update_view false
  let b1 := acc.1.setCell ij u.1
  if u.2 = some true then (b1, acc.2 ++ [ij]) else (b1, acc.2)

/-- `Board._traverse_empty`, fuel-indexed: reveal all neighbors, then recurse
into those that newly became blank. -/
def Board.traverseFuel : Nat → Board → Pos → Board
  | 0, b, _ => b
  | fuel + 1, b, tup =>
    let r := (b.iter_neighbors tup).foldl traverseStep (b, [])
    r.2.foldl (Board.traverseFuel fuel) r.1

/-- `Board._traverse_empty(tup)` with enough fuel for any reachable cascade
(the recursion depth never exceeds one more than the number of zero-value
cells, of which there are at most `d * d`). -/
def Board.traverse_empty (b : Board) (tup : Pos) : Board :=
  b.traverseFuel (b.d * b.d + 1) tup

/-- The flag bookkeeping of `Board.update_view`: `old` and `new` are the
target cell's view before and after `Cell.update_view`. -/
def Board.applyLeft (b : Board) (old new : View) : Board :=
  if new = View.M ∧ old ≠ View.M then { b with left := b.left - 1 }
  else if old = View.M ∧ new ≠ View.M then { b with left := b.left + 1 }
  else b

/-- `Board.update_view(tup, mark)`: the reveal/flag operation.  The result is
`Err.OutOfRange` when `tup` misses the grid, otherwise the updated board and
the Python return value (`some false` for False = loss, `some true` for
True = win, `none` for None = continue). -/
def Board.update_view (b : Board) (tup : Pos) (mark : Bool) :
    Except Err (Board × Option Bool) :=
  if ¬ inRange b.d tup then Except.error Err.OutOfRange
  else
    let u := (b.grid tup).update_view mark
    let b1 := b.setCell tup u.1
    if u.2 = some false then Except.ok (b1, some false)
    else
      let b2 := b1.applyLeft (b.grid tup).view u.1.view
      let b3 := if u.2 = some true then b2.traverse_empty tup else b2
      Except.ok (b3, b3.won)

/-- The board state after a call to `Board.update_view`: on `OutOfRange`
(a Python `KeyError` from the very first statement) nothing was mutated. -/
def Board.updateState (b : Board) (tup : Pos) (mark : Bool) : Board :=
  match b.update_view tup mark with
  | Except.ok r => r.1
  | Except.error _ => b

/-- The value returned by a call to `Board.update_view`, or `none` when the
call raised. -/
def Board.updateOutcome (b : Board) (tup : Pos) (mark : Bool) : Option (Option Bool) :=
  match b.update_view tup mark with
  | Except.ok r => some r.2
  | Except.error _ => none

/-- The difficulty divisor table `modes`. -/
def modes (diff : Nat) : Nat :=
  if diff = 0 then 8 else if diff = 1 then 6 else 4

/-- The deterministic part of `Board.__init__`: all cells hidden with value 0,
`bomb` and `left` from the divisor table. -/
def Board.init (d : Nat) (diff : Nat) : Board :=
  { d := d, diff := diff,
    grid := fun p => Cell.init d p.1 p.2,
    bomb := d ^ 2 / modes diff,
    left := ((d ^ 2 / modes diff : Nat) : Int) }

/-- One accepted draw of the construction loop: mark the drawn position as a
mine, then increment its current non-mine neighbors. -/
def Board.placeMine (b : Board) (tup : Pos) : Board :=
  (b.setCell tup { b.grid tup with value := -1 }).increment tup

/-- The whole construction loop, abstracted over the list of accepted draws
(rejection sampling yields distinct in-range positions). -/
def Board.placeMines (b : Board) : List Pos → Board
  | [] => b
  | m :: ms => (b.placeMine m).placeMines ms

/-- A fully constructed board from an explicit mine list. -/
def mkBoard (d : Nat) (diff : Nat) (mines : List Pos) : Board :=
  (Board.init d diff).placeMines mines

/-! ## Derived notions used by the theorems -/

/-- Chebyshev adjacency: distinct positions whose coordinates each differ by
at most one (the 8-neighborhood). -/
def adjacent (p q : Pos) : Prop :=
  p ≠ q ∧ -1 ≤ p.1 - q.1 ∧ p.1 - q.1 ≤ 1 ∧ -1 ≤ p.2 - q.2 ∧ p.2 - q.2 ≤ 1

instance (p q : Pos) : Decidable (adjacent p q) := by
  unfold adjacent; infer_instance

/-- Well-formedness of the stored edge classes: every cell records the edge
class of its own position, as `Board.__init__` establishes. -/
def Board.WF (b : Board) : Prop :=
  ∀ p : Pos, (b.grid p).ir = edgeClass b.d p.1 ∧ (b.grid p).jr = edgeClass b.d p.2

/-- Number of positions of `mines` adjacent to `p`. -/
def minesAdj (p : Pos) (mines : List Pos) : Nat :=
  (mines.filter fun q => decide (adjacent p q)).length

/-- Number of occurrences of `p` in a position list. -/
def countPos (l : List Pos) (p : Pos) : Nat :=
  (l.filter fun q => decide (q = p)).length

/-- The number of cells currently showing the flag view, mines or not. -/
def flaggedCellCount (b : Board) : Nat :=
  ((posList b.d).filter fun p => decide ((b.grid p).view = View.M)).length

/-! ## Concrete boards used by several scenarios -/

/-- Mine positions of the running 5 by 5 example. -/
def exMines : List Pos := [(0, 0), (0, 2), (4, 4)]

/-- A 5 by 5 easy board: `bomb = 25 / 8 = 3`, mines as listed. -/
def exBoard : Board := mkBoard 5 0 exMines

/-- The example board after its mine `(0, 0)` has been revealed (a loss). -/
def exLost : Board := exBoard.updateState (0, 0) false

/-- `exLost` after re-flagging the detonated mine. -/
def exReflagged : Board := exLost.updateState (0, 0) true

/-- The example board with the mines `(0, 0)` and `(0, 2)` flagged. -/
def exTwoFlags : Board := (exBoard.updateState (0, 0) true).updateState (0, 2) true

/-- The example board with the safe numbered cell `(1, 3)` flagged and then
the zero cell `(3, 0)` revealed; the cascade reveals `(1, 3)` and clears its
flag without touching `left`. -/
def exCascaded : Board := (exBoard.updateState (1, 3) true).updateState (3, 0) false

/-! ## Notions for the cascade region (claim C6) -/

/-- One connectivity step of the zero region: `q` is an in-range, zero-valued
cell adjacent to `p`. -/
def zstep (b : Board) (p q : Pos) : Prop :=
  inRange b.d q ∧ adjacent p q ∧ (b.grid q).value = 0

instance (b : Board) (p q : Pos) : Decidable (zstep b p q) := by
  unfold zstep; infer_instance

/-- The zero region of `s`: every position reachable from `s` by steps
through in-range zero-valued cells. -/
def ZReach (b : Board) (s p : Pos) : Prop :=
  Relation.ReflTransGen (zstep b) s p

/-- Number of in-range zero-valued cells whose view is still truthy
(not yet revealed blank); the cascade strictly consumes this. -/
def truthyZCount (b : Board) : Nat :=
  (posList b.d).countP fun p =>
    decide ((b.grid p).value = 0 ∧ (b.grid p).view.truthy = true)

/-- A fully processed cascade cell: each of its in-range neighbors is
revealed, blank for zero cells and numbered for positive cells
(mine neighbors are skipped by the iterator and unconstrained). -/
def Settled (b : Board) (p : Pos) : Prop :=
  ∀ q, inRange b.d q → adjacent p q →
    ((b.grid q).value = 0 → (b.grid q).view.truthy = false) ∧
    (0 < (b.grid q).value → (b.grid q).view = View.num (b.grid q).value)

/-- How a single cell's view can evolve under reveal updates of the cascade:
unchanged, or a truthy zero cell turning blank, or a positive cell showing
its number. -/
def ViewEvolve (value : Int) (v1 v2 : View) : Prop :=
  v2 = v1 ∨ (value = 0 ∧ v1.truthy = true ∧ v2 = View.blank) ∨
    (0 < value ∧ v2 = View.num value)

/-- A handcrafted 5 by 5 board state (reachable through `__setitem__`):
the zero cells are the diagonal `(0,0), (1,1), (2,2)`, every other cell shows
value 1, and the middle zero cell `(1,1)` is already revealed blank while its
two diagonal neighbors are still hidden. -/
def bCE : Board :=
  { d := 5, diff := 0,
    grid := fun p =>
      { value := if p = (0, 0) ∨ p = (1, 1) ∨ p = (2, 2) then 0 else 1,
        view := if p = (1, 1) then View.blank else View.O,
        ir := edgeClass 5 p.1, jr := edgeClass 5 p.2 },
    bomb := 3, left := 3 }


/-! ## Basic preservation lemmas -/

theorem Cell.update_view_value (c : Cell) (mark : Bool) :
    ((c.update_view mark).1).value = c.value := by
  unfold Cell.update_view
  repeat' split
  all_goals rfl

theorem Cell.update_view_ir (c : Cell) (mark : Bool) :
    ((c.update_view mark).1).ir = c.ir := by
  unfold Cell.update_view
  repeat' split
  all_goals rfl

theorem Cell.update_view_jr (c : Cell) (mark : Bool) :
    ((c.update_view mark).1).jr = c.jr := by
  unfold Cell.update_view
  repeat' split
  all_goals rfl

theorem Board.setCell_d (b : Board) (p : Pos) (c : Cell) : (b.setCell p c).d = b.d := rfl

theorem Board.setCell_bomb (b : Board) (p : Pos) (c : Cell) :
    (b.setCell p c).bomb = b.bomb := rfl

theorem Board.setCell_left (b : Board) (p : Pos) (c : Cell) :
    (b.setCell p c).left = b.left := rfl

theorem Board.setCell_grid_same (b : Board) (p : Pos) (c : Cell) :
    (b.setCell p c).grid p = c := by
  simp [Board.setCell]

theorem Board.setCell_grid_other (b : Board) (p q : Pos) (c : Cell) (h : q ≠ p) :
    (b.setCell p c).grid q = b.grid q := by
  simp [Board.setCell, h]

theorem Board.applyLeft_d (b : Board) (old new : View) : (b.applyLeft old new).d = b.d := by
  unfold Board.applyLeft
  repeat' split
  all_goals rfl

theorem Board.applyLeft_bomb (b : Board) (old new : View) :
    (b.applyLeft old new).bomb = b.bomb := by
  unfold Board.applyLeft
  repeat' split
  all_goals rfl

theorem Board.applyLeft_grid (b : Board) (old new : View) :
    (b.applyLeft old new).grid = b.grid := by
  unfold Board.applyLeft
  repeat' split
  all_goals rfl

theorem traverseStep_fst_d (acc : Board × List Pos) (ij : Pos) :
    (traverseStep acc ij).1.d = acc.1.d := by
  unfold traverseStep
  dsimp only
  split
  all_goals rfl

theorem traverseStep_fst_bomb (acc : Board × List Pos) (ij : Pos) :
    (traverseStep acc ij).1.bomb = acc.1.bomb := by
  unfold traverseStep
  dsimp only
  split
  all_goals rfl

theorem traverseStep_fst_left (acc : Board × List Pos) (ij : Pos) :
    (traverseStep acc ij).1.left = acc.1.left := by
  unfold traverseStep
  dsimp only
  split
  all_goals rfl

theorem foldl_traverseStep_d (l : List Pos) (acc : Board × List Pos) :
    (l.foldl traverseStep acc).1.d = acc.1.d := by
  induction l generalizing acc with
  | nil => rfl
  | cons x xs ih => rw [List.foldl_cons, ih, traverseStep_fst_d]

theorem foldl_traverseStep_bomb (l : List Pos) (acc : Board × List Pos) :
    (l.foldl traverseStep acc).1.bomb = acc.1.bomb := by
  induction l generalizing acc with
  | nil => rfl
  | cons x xs ih => rw [List.foldl_cons, ih, traverseStep_fst_bomb]

theorem foldl_traverseStep_left (l : List Pos) (acc : Board × List Pos) :
    (l.foldl traverseStep acc).1.left = acc.1.left := by
  induction l generalizing acc with
  | nil => rfl
  | cons x xs ih => rw [List.foldl_cons, ih, traverseStep_fst_left]

theorem Board.traverseFuel_d (fuel : Nat) :
    ∀ (b : Board) (tup : Pos), (Board.traverseFuel fuel b tup).d = b.d := by
  induction fuel with
  | zero => intro b tup; rfl
  | succ fuel ih =>
    intro b tup
    show (List.foldl (Board.traverseFuel fuel) _ _).d = b.d
    generalize ((b.iter_neighbors tup).foldl traverseStep (b, [])).2 = cache
    have h0 := foldl_traverseStep_d (b.iter_neighbors tup) (b, [])
    generalize hb1 : ((b.iter_neighbors tup).foldl traverseStep (b, [])).1 = b1 at h0 ⊢
    clear hb1
    induction cache generalizing b1 with
    | nil => exact h0
    | cons x xs ih2 => rw [List.foldl_cons]; exact ih2 _ ((ih b1 x).trans h0)

theorem Board.traverseFuel_bomb (fuel : Nat) :
    ∀ (b : Board) (tup : Pos), (Board.traverseFuel fuel b tup).bomb = b.bomb := by
  induction fuel with
  | zero => intro b tup; rfl
  | succ fuel ih =>
    intro b tup
    show (List.foldl (Board.traverseFuel fuel) _ _).bomb = b.bomb
    generalize ((b.iter_neighbors tup).foldl traverseStep (b, [])).2 = cache
    have h0 := foldl_traverseStep_bomb (b.iter_neighbors tup) (b, [])
    generalize hb1 : ((b.iter_neighbors tup).foldl traverseStep (b, [])).1 = b1 at h0 ⊢
    clear hb1
    induction cache generalizing b1 with
    | nil => exact h0
    | cons x xs ih2 => rw [List.foldl_cons]; exact ih2 _ ((ih b1 x).trans h0)

theorem Board.traverseFuel_left (fuel : Nat) :
    ∀ (b : Board) (tup : Pos), (Board.traverseFuel fuel b tup).left = b.left := by
  induction fuel with
  | zero => intro b tup; rfl
  | succ fuel ih =>
    intro b tup
    show (List.foldl (Board.traverseFuel fuel) _ _).left = b.left
    generalize ((b.iter_neighbors tup).foldl traverseStep (b, [])).2 = cache
    have h0 := foldl_traverseStep_left (b.iter_neighbors tup) (b, [])
    generalize hb1 : ((b.iter_neighbors tup).foldl traverseStep (b, [])).1 = b1 at h0 ⊢
    clear hb1
    induction cache generalizing b1 with
    | nil => exact h0
    | cons x xs ih2 => rw [List.foldl_cons]; exact ih2 _ ((ih b1 x).trans h0)

theorem Board.traverse_empty_bomb (b : Board) (tup : Pos) :
    (b.traverse_empty tup).bomb = b.bomb :=
  Board.traverseFuel_bomb _ b tup

theorem Board.traverse_empty_left (b : Board) (tup : Pos) :
    (b.traverse_empty tup).left = b.left :=
  Board.traverseFuel_left _ b tup

theorem Board.traverse_empty_d (b : Board) (tup : Pos) :
    (b.traverse_empty tup).d = b.d :=
  Board.traverseFuel_d _ b tup

/-! ## Case lemmas for the operations -/

theorem Cell.update_view_true_eq (c : Cell) :
    c.update_view true = ({ c with view := View.M }, none) := rfl

theorem Cell.update_view_mine (c : Cell) (h : c.value < 0) :
    c.update_view false = ({ c with view := View.X }, some false) := by
  unfold Cell.update_view
  rw [if_neg Bool.false_ne_true, if_pos h]

theorem Cell.update_view_numbered (c : Cell) (h0 : ¬ c.value < 0) (h1 : c.value ≠ 0) :
    c.update_view false = ({ c with view := View.num c.value }, none) := by
  unfold Cell.update_view
  rw [if_neg Bool.false_ne_true, if_neg h0, if_pos h1]

theorem Cell.update_view_zero_truthy (c : Cell) (h0 : ¬ c.value < 0) (h1 : c.value = 0)
    (h2 : c.view.truthy = true) :
    c.update_view false = ({ c with view := View.blank }, some true) := by
  unfold Cell.update_view
  rw [if_neg Bool.false_ne_true, if_neg h0, if_neg (by simp [h1]), if_pos h2]

theorem Cell.update_view_zero_falsy (c : Cell) (h0 : ¬ c.value < 0) (h1 : c.value = 0)
    (h2 : ¬ c.view.truthy = true) :
    c.update_view false = (c, none) := by
  unfold Cell.update_view
  rw [if_neg Bool.false_ne_true, if_neg h0, if_neg (by simp [h1]), if_neg h2]

theorem Board.applyLeft_to_M (b : Board) (old : View) (h : old ≠ View.M) :
    b.applyLeft old View.M = { b with left := b.left - 1 } := by
  unfold Board.applyLeft
  rw [if_pos ⟨rfl, h⟩]

theorem Board.applyLeft_M_M (b : Board) :
    b.applyLeft View.M View.M = b := by
  unfold Board.applyLeft
  rw [if_neg (by simp), if_neg (by simp)]

theorem Board.applyLeft_no_M (b : Board) (old new : View) (h1 : old ≠ View.M)
    (h2 : new ≠ View.M) : b.applyLeft old new = b := by
  unfold Board.applyLeft
  rw [if_neg (by simp [h2]), if_neg (by simp [h1])]

theorem Board.update_view_not_inRange (b : Board) (tup : Pos) (mark : Bool)
    (h : ¬ inRange b.d tup) :
    b.update_view tup mark = Except.error Err.OutOfRange := by
  unfold Board.update_view
  rw [if_pos h]

theorem Board.update_view_mark_eq (b : Board) (tup : Pos) (h : inRange b.d tup) :
    b.update_view tup true =
      Except.ok
        ((b.setCell tup { b.grid tup with view := View.M }).applyLeft
            (b.grid tup).view View.M,
         ((b.setCell tup { b.grid tup with view := View.M }).applyLeft
            (b.grid tup).view View.M).won) := by
  unfold Board.update_view
  rw [if_neg (not_not_intro h)]
  simp only [Cell.update_view_true_eq]
  rfl

theorem Board.update_view_mine_eq (b : Board) (tup : Pos) (h : inRange b.d tup)
    (hm : (b.grid tup).value < 0) :
    b.update_view tup false =
      Except.ok (b.setCell tup { b.grid tup with view := View.X }, some false) := by
  unfold Board.update_view
  rw [if_neg (not_not_intro h)]
  simp only [Cell.update_view_mine _ hm]
  rfl

theorem Board.update_view_numbered_eq (b : Board) (tup : Pos) (h : inRange b.d tup)
    (h0 : ¬ (b.grid tup).value < 0) (h1 : (b.grid tup).value ≠ 0) :
    b.update_view tup false =
      (let b2 := (b.setCell tup { b.grid tup with view := View.num (b.grid tup).value
          }).applyLeft (b.grid tup).view (View.num (b.grid tup).value)
       Except.ok (b2, b2.won)) := by
  unfold Board.update_view
  rw [if_neg (not_not_intro h)]
  simp only [Cell.update_view_numbered _ h0 h1]
  rfl

theorem Board.update_view_cascade_eq (b : Board) (tup : Pos) (h : inRange b.d tup)
    (h0 : ¬ (b.grid tup).value < 0) (h1 : (b.grid tup).value = 0)
    (h2 : (b.grid tup).view.truthy = true) :
    b.update_view tup false =
      (let b2 := (b.setCell tup { b.grid tup with view := View.blank }).applyLeft
          (b.grid tup).view View.blank
       Except.ok (b2.traverse_empty tup, (b2.traverse_empty tup).won)) := by
  unfold Board.update_view
  rw [if_neg (not_not_intro h)]
  simp only [Cell.update_view_zero_truthy _ h0 h1 h2]
  rfl

/-! ## Claim C2: a flag request does not toggle -/

/-- C2 (counterexample): the claim says a flag request on a `Flagged` cell
unflags it back to `Hidden`; in the code, `mark` unconditionally writes the
flag view, so a flagged cell stays flagged. -/
theorem C2_counterexample :
    (Cell.update_view { value := 0, view := View.M, ir := 0, jr := 0 } true).1.view
        = View.M ∧ View.M ≠ View.O := by
  decide

/-- C2 (amended): `apply` with `markRequested = true` always sets the state to
`Flagged`, whatever the current state (`Hidden`, `Flagged`, `Revealed` or
`Detonated`), and its return value makes no distinction (always None). -/
theorem C2_mark_always_flags (c : Cell) :
    c.update_view true = ({ c with view := View.M }, none) :=
  Cell.update_view_true_eq c

/-! ## Claim C3: reveal requests against flagged cells are not ignored -/

/-- C3 (code bug witness): the guard meant to protect flagged cells compares
the integer `value` field with the flag string, so it never fires: a reveal
request against a flagged mine detonates it and loses the game. -/
theorem C3_reveal_detonates_flagged_mine :
    (Cell.update_view { value := -1, view := View.M, ir := 0, jr := 0 } false)
        = ({ value := -1, view := View.X, ir := 0, jr := 0 }, some false) ∧
    (exBoard.updateState (0, 0) true).updateOutcome (0, 0) false = some (some false) ∧
    (((exBoard.updateState (0, 0) true).updateState (0, 0) false).grid (0, 0)).view
        = View.X := by
  refine ⟨by decide, by decide, by decide⟩

/-! ## Claim C4: detonation and what follows it -/

/-- C4 (counterexample): after the mine at `(0, 0)` is detonated, a flag
request on that same cell is not a no-op: it flags the detonated cell. -/
theorem C4_counterexample :
    (((exBoard.updateState (0, 0) false).updateState (0, 0) true).grid (0, 0)).view
        = View.M ∧ View.M ≠ View.X := by
  decide

/-- C4 (amended): revealing a hidden mine detonates it and returns `Loss`;
afterwards a further reveal request leaves the board pointwise unchanged but
returns `Loss` again, while a further flag request re-flags the cell. -/
theorem C4_detonation (b : Board) (tup : Pos) (h1 : inRange b.d tup)
    (h2 : (b.grid tup).value < 0) (h3 : (b.grid tup).view = View.O) :
    ∃ b1, b.update_view tup false = Except.ok (b1, some false) ∧
      (b1.grid tup).view = View.X ∧ b1.left = b.left ∧
      (∀ p, p ≠ tup → b1.grid p = b.grid p) ∧
      (∃ b2, b1.update_view tup false = Except.ok (b2, some false) ∧
        ∀ p, b2.grid p = b1.grid p) ∧
      (∀ b2 o2, b1.update_view tup true = Except.ok (b2, o2) →
        (b2.grid tup).view = View.M) := by
  refine ⟨_, Board.update_view_mine_eq b tup h1 h2, ?_, ?_, ?_, ?_, ?_⟩
  · rw [Board.setCell_grid_same]
  · exact Board.setCell_left b tup _
  · intro p hp
    exact Board.setCell_grid_other b tup p _ hp
  · have hd : (b.setCell tup { b.grid tup with view := View.X }).d = b.d :=
      Board.setCell_d b tup _
    have hg : ((b.setCell tup { b.grid tup with view := View.X }).grid tup)
        = { b.grid tup with view := View.X } := Board.setCell_grid_same b tup _
    refine ⟨_, Board.update_view_mine_eq _ tup (by rwa [hd]) (by rw [hg]; exact h2), ?_⟩
    intro p
    by_cases hp : p = tup
    · subst hp
      rw [Board.setCell_grid_same, hg]
    · exact Board.setCell_grid_other _ tup p _ hp
  · intro b2 o2 h
    have hd : (b.setCell tup { b.grid tup with view := View.X }).d = b.d :=
      Board.setCell_d b tup _
    rw [Board.update_view_mark_eq _ tup (by rwa [hd])] at h
    cases h
    rw [Board.applyLeft_grid, Board.setCell_grid_same]

/-- C4 (witness): the amended statement, instantiated on the example board at
its mine `(0, 0)`. -/
theorem C4_detonation_witness :
    ∃ b1, exBoard.update_view (0, 0) false = Except.ok (b1, some false) ∧
      (b1.grid (0, 0)).view = View.X ∧ b1.left = exBoard.left ∧
      (∀ p, p ≠ (0, 0) → b1.grid p = exBoard.grid p) ∧
      (∃ b2, b1.update_view (0, 0) false = Except.ok (b2, some false) ∧
        ∀ p, b2.grid p = b1.grid p) ∧
      (∀ b2 o2, b1.update_view (0, 0) true = Except.ok (b2, o2) →
        (b2.grid (0, 0)).view = View.M) :=
  C4_detonation exBoard (0, 0) (by decide) (by decide) (by decide)

/-! ## Claim C7: flag then unflag does not round-trip -/

/-- C7 (counterexample): there is no unflag; flagging `(1, 3)` twice leaves
`left` at 2, not at its prior value 3. -/
theorem C7_counterexample :
    ((exBoard.updateState (1, 3) true).updateState (1, 3) true).left = 2 ∧
    exBoard.left = 3 ∧ (2 : Int) ≠ 3 := by
  refine ⟨by decide, by decide, by decide⟩

/-- C7 (amended): a flag request on a not-currently-flagged cell decrements
`left` by one and flags the cell; a second flag request on the same cell
changes neither the cell nor `left` (flagging is idempotent, there is no
unflag and the prior counter value is not restored). -/
theorem C7_flag_twice (b : Board) (tup : Pos) (h1 : inRange b.d tup)
    (h2 : (b.grid tup).view ≠ View.M) :
    ∃ b1 o1, b.update_view tup true = Except.ok (b1, o1) ∧
      b1.left = b.left - 1 ∧ (b1.grid tup).view = View.M ∧
      ∀ b2 o2, b1.update_view tup true = Except.ok (b2, o2) →
        b2.left = b1.left ∧ (b2.grid tup).view = View.M := by
  refine ⟨_, _, Board.update_view_mark_eq b tup h1, ?_, ?_, ?_⟩
  · rw [Board.applyLeft_to_M _ _ h2, Board.setCell_left]
  · rw [Board.applyLeft_grid, Board.setCell_grid_same]
  · intro b2 o2 h
    have hd : ((b.setCell tup { b.grid tup with view := View.M }).applyLeft
        (b.grid tup).view View.M).d = b.d := by
      rw [Board.applyLeft_d, Board.setCell_d]
    have hg : ((b.setCell tup { b.grid tup with view := View.M }).applyLeft
        (b.grid tup).view View.M).grid tup = { b.grid tup with view := View.M } := by
      rw [Board.applyLeft_grid, Board.setCell_grid_same]
    rw [Board.update_view_mark_eq _ tup (by rwa [hd])] at h
    cases h
    constructor
    · rw [hg, Board.applyLeft_M_M, Board.setCell_left]
    · rw [hg, Board.applyLeft_M_M, Board.setCell_grid_same]

/-- C7 (witness): the amended statement at cell `(1, 3)` of the example
board. -/
theorem C7_flag_twice_witness :
    ∃ b1 o1, exBoard.update_view (1, 3) true = Except.ok (b1, o1) ∧
      b1.left = exBoard.left - 1 ∧ (b1.grid (1, 3)).view = View.M ∧
      ∀ b2 o2, b1.update_view (1, 3) true = Except.ok (b2, o2) →
        b2.left = b1.left ∧ (b2.grid (1, 3)).view = View.M :=
  C7_flag_twice exBoard (1, 3) (by decide) (by decide)

/-! ## Claim C8: out-of-range positions are rejected before any mutation -/

/-- C8: an update at a position outside the grid raises `OutOfRange` (the
dictionary lookup is the first statement of `Board.update_view`, before any
state change), and the board after the call is the board before it. -/
theorem C8_out_of_range (b : Board) (tup : Pos) (mark : Bool)
    (h : ¬ inRange b.d tup) :
    b.update_view tup mark = Except.error Err.OutOfRange ∧
      b.updateState tup mark = b := by
  have he := Board.update_view_not_inRange b tup mark h
  exact ⟨he, by rw [Board.updateState, he]⟩

/-- C8 (witness): position `(9, 9)` on a 5 by 5 board. -/
theorem C8_out_of_range_witness :
    exBoard.update_view (9, 9) false = Except.error Err.OutOfRange ∧
      exBoard.updateState (9, 9) false = exBoard :=
  C8_out_of_range exBoard (9, 9) false (by decide)

/-! ## Claim C10: a loss is not latched -/

/-- C10: the board keeps accepting updates after a loss; flagging the
detonated mine puts it back into the flag view, it then counts in the win
query, and flagging the two remaining mines returns `Win`. -/
theorem C10_loss_not_latched :
    exBoard.updateOutcome (0, 0) false = some (some false) ∧
    (exReflagged.grid (0, 0)).view = View.M ∧
    (exReflagged.grid (0, 0)).value < 0 ∧
    (exReflagged.updateState (0, 2) true).updateOutcome (4, 4) true
        = some (some true) := by
  refine ⟨by decide, by decide, by decide, by decide⟩

/-! ## Claim C1: the win query -/

/-- Any successful `update_view` call that did not lose returns exactly
`Board.won` of the final board, whose `bomb` field is unchanged. -/
theorem Board.update_view_ok_shape (b : Board) (tup : Pos) (mark : Bool) (b1 : Board)
    (out : Option Bool) (h : b.update_view tup mark = Except.ok (b1, out))
    (hb : out ≠ some false) : out = b1.won ∧ b1.bomb = b.bomb := by
  unfold Board.update_view at h
  split at h
  · cases h
  · dsimp only at h
    split at h
    · cases h
      exact absurd rfl hb
    · cases h
      refine ⟨rfl, ?_⟩
      split
      · rw [Board.traverse_empty_bomb, Board.applyLeft_bomb, Board.setCell_bomb]
      · rw [Board.applyLeft_bomb, Board.setCell_bomb]

/-- C1: whenever `update_view` succeeds and its signal is not a loss, it
returns `Win` (`some true`) exactly when the number of cells that are mines
and currently flagged equals the board's mine count; flags on non-mine cells
are invisible to `flaggedMineCount` and so neither count nor block. -/
theorem C1_win_iff (b : Board) (tup : Pos) (mark : Bool) (b1 : Board)
    (out : Option Bool) (h : b.update_view tup mark = Except.ok (b1, out))
    (hb : out ≠ some false) :
    out = some true ↔ flaggedMineCount b1 = b.bomb := by
  obtain ⟨ho, hbomb⟩ := Board.update_view_ok_shape b tup mark b1 out h hb
  rw [ho, ← hbomb, Board.won]
  split
  · rename_i hc
    simp [hc]
  · rename_i hc
    simp [hc]

/-- C1 (witness): flagging the third mine of the example board wins. -/
theorem C1_win_iff_witness :
    ∃ b1 out, exTwoFlags.update_view (4, 4) true = Except.ok (b1, out) ∧
      out ≠ some false ∧ (out = some true ↔ flaggedMineCount b1 = exTwoFlags.bomb) :=
  ⟨_, _, rfl, by decide, C1_win_iff exTwoFlags (4, 4) true _ _ rfl (by decide)⟩

/-! ## Claim C9: the flag counter ignores the cascade -/

/-- C9: `left` bookkeeping applies only to the target cell: `_traverse_empty`
never changes `left` (or `bomb`, or `d`), and after a cascade that clears a
flagged neighbor, `left` differs from `bomb` minus the number of currently
flagged cells. -/
theorem C9_cascade_skips_left :
    (∀ (b : Board) (tup : Pos), (b.traverse_empty tup).left = b.left ∧
      (b.traverse_empty tup).bomb = b.bomb ∧ (b.traverse_empty tup).d = b.d) ∧
    ((exCascaded.grid (1, 3)).view = View.num 1 ∧
      exCascaded.left = 2 ∧ flaggedCellCount exCascaded = 0 ∧
      exCascaded.left ≠ (exCascaded.bomb : Int) - (flaggedCellCount exCascaded : Int)) :=
  ⟨fun b tup => ⟨Board.traverse_empty_left b tup, Board.traverse_empty_bomb b tup,
      Board.traverse_empty_d b tup⟩,
    by decide, by decide, by decide, by decide⟩

example : (Cell.update_view (Cell.init 5 0 0) true).1.view = View.M := by decide

example : (Cell.update_view { value := -1, view := View.M, ir := 0, jr := 0 } false)
    = ({ value := -1, view := View.X, ir := 0, jr := 0 }, some false) := by decide

example : ((mkBoard 5 0 [(0, 0), (2, 2), (4, 4)]).grid (1, 1)).value = 2 := by decide

example : (mkBoard 5 0 [(0, 0), (2, 2), (4, 4)]).bomb = 3 := by decide

/-! ## Neighborhood characterization -/

theorem inRange_def (d : Nat) (p : Pos) :
    inRange d p ↔ 0 ≤ p.1 ∧ p.1 < (d : Int) ∧ 0 ≤ p.2 ∧ p.2 < (d : Int) := Iff.rfl

theorem adjacent_def (p q : Pos) :
    adjacent p q ↔
      p ≠ q ∧ -1 ≤ p.1 - q.1 ∧ p.1 - q.1 ≤ 1 ∧ -1 ≤ p.2 - q.2 ∧ p.2 - q.2 ≤ 1 :=
  Iff.rfl

theorem adjacent_comm (p q : Pos) : adjacent p q ↔ adjacent q p := by
  rw [adjacent_def, adjacent_def]
  constructor
  all_goals rintro ⟨h1, h2⟩
  all_goals exact ⟨fun hh => h1 hh.symm, by omega, by omega, by omega, by omega⟩

theorem Board.iter_neighbors_eq (b : Board) (tup : Pos) :
    b.iter_neighbors tup =
      (offsetRange (b.grid tup).ir).flatMap fun k =>
        (offsetRange (b.grid tup).jr).flatMap fun l =>
          if (b.grid (tup.1 + k, tup.2 + l)).value < 0 ∨ tup = (tup.1 + k, tup.2 + l)
          then [] else [(tup.1 + k, tup.2 + l)] := rfl

theorem mem_offsetRange_iff {d : Nat} {x : Int} (hd : 2 ≤ d) (h0 : 0 ≤ x)
    (h1 : x < (d : Int)) (k : Int) :
    k ∈ offsetRange (edgeClass d x) ↔
      -1 ≤ k ∧ k ≤ 1 ∧ 0 ≤ x + k ∧ x + k < (d : Int) := by
  unfold edgeClass
  split_ifs with ha hb
  · simp only [offsetRange]
    norm_num
    omega
  · simp only [offsetRange]
    norm_num
    omega
  · simp only [offsetRange]
    norm_num
    omega

theorem mem_ite_nil_singleton {α : Type} {c : Prop} [Decidable c] {x a : α}
    (h : a ∈ (if c then ([] : List α) else [x])) : a = x := by
  split at h
  · simp at h
  · simpa using h

theorem offsetRange_nodup (r : Int) : (offsetRange r).Nodup := by
  unfold offsetRange
  split_ifs
  · decide
  · decide
  · decide

theorem Board.iter_neighbors_nodup (b : Board) (tup : Pos) :
    (b.iter_neighbors tup).Nodup := by
  rw [Board.iter_neighbors_eq, List.nodup_flatMap]
  constructor
  · intro k _
    rw [List.nodup_flatMap]
    constructor
    · intro l _
      split
      · exact List.nodup_nil
      · exact List.nodup_singleton _
    · refine (offsetRange_nodup _).imp ?_
      intro l1 l2 hne a ha1 ha2
      have e1 := mem_ite_nil_singleton ha1
      have e2 := mem_ite_nil_singleton ha2
      apply hne
      have : tup.2 + l1 = tup.2 + l2 := congrArg Prod.snd (e1.symm.trans e2)
      omega
  · refine (offsetRange_nodup _).imp ?_
    intro k1 k2 hne a ha1 ha2
    rw [List.mem_flatMap] at ha1 ha2
    obtain ⟨l1, _, hm1⟩ := ha1
    obtain ⟨l2, _, hm2⟩ := ha2
    have e1 := mem_ite_nil_singleton hm1
    have e2 := mem_ite_nil_singleton hm2
    apply hne
    have : tup.1 + k1 = tup.1 + k2 := congrArg Prod.fst (e1.symm.trans e2)
    omega

theorem Board.mem_iter_neighbors {b : Board} (hd : 2 ≤ b.d) (hwf : b.WF) {tup : Pos}
    (ht : inRange b.d tup) (q : Pos) :
    q ∈ b.iter_neighbors tup ↔
      inRange b.d q ∧ adjacent tup q ∧ ¬ (b.grid q).value < 0 := by
  obtain ⟨hi0, hi1, hj0, hj1⟩ := ht
  rw [Board.iter_neighbors_eq, (hwf tup).1, (hwf tup).2, List.mem_flatMap]
  constructor
  · rintro ⟨k, hk, hq⟩
    rw [List.mem_flatMap] at hq
    obtain ⟨l, hl, hq⟩ := hq
    rw [mem_offsetRange_iff hd hi0 hi1] at hk
    rw [mem_offsetRange_iff hd hj0 hj1] at hl
    by_cases hc : (b.grid (tup.1 + k, tup.2 + l)).value < 0 ∨ tup = (tup.1 + k, tup.2 + l)
    · rw [if_pos hc] at hq
      simp at hq
    · rw [if_neg hc] at hq
      push_neg at hc
      obtain ⟨hcv, hct⟩ := hc
      rw [List.mem_singleton] at hq
      subst hq
      refine ⟨?_, ?_, not_lt.mpr hcv⟩
      · rw [inRange_def]
        constructor
        · omega
        · refine ⟨by omega, by omega, by omega⟩
      · rw [adjacent_def]
        refine ⟨fun hh => hct hh, ?_, ?_, ?_, ?_⟩
        all_goals simp only
        all_goals omega
  · rintro ⟨hqr, hqa, hval⟩
    rw [inRange_def] at hqr
    obtain ⟨hq0, hq1, hq2, hq3⟩ := hqr
    rw [adjacent_def] at hqa
    obtain ⟨hne, ha1, ha2, ha3, ha4⟩ := hqa
    refine ⟨q.1 - tup.1, ?_, ?_⟩
    · rw [mem_offsetRange_iff hd hi0 hi1]
      omega
    · rw [List.mem_flatMap]
      refine ⟨q.2 - tup.2, ?_, ?_⟩
      · rw [mem_offsetRange_iff hd hj0 hj1]
        omega
      · have hq : (tup.1 + (q.1 - tup.1), tup.2 + (q.2 - tup.2)) = q := by
          have e1 : tup.1 + (q.1 - tup.1) = q.1 := by omega
          have e2 : tup.2 + (q.2 - tup.2) = q.2 := by omega
          rw [e1, e2]
        rw [hq, if_neg (not_or.mpr ⟨hval, hne⟩)]
        exact List.mem_singleton_self q

/-! ## Counting the increments of mine placement -/

theorem incStep_d (b : Board) (xy : Pos) : (incStep b xy).d = b.d := rfl

theorem incStep_grid_value (b : Board) (xy p : Pos) :
    ((incStep b xy).grid p).value
      = (b.grid p).value + (if xy = p then 1 else 0) := by
  unfold incStep
  by_cases hp : p = xy
  · subst hp
    rw [Board.setCell_grid_same, if_pos rfl]
  · rw [Board.setCell_grid_other _ _ _ _ hp, if_neg (fun hh => hp hh.symm), add_zero]

theorem incStep_grid_view (b : Board) (xy p : Pos) :
    ((incStep b xy).grid p).view = (b.grid p).view := by
  unfold incStep
  by_cases hp : p = xy
  · subst hp
    rw [Board.setCell_grid_same]
  · rw [Board.setCell_grid_other _ _ _ _ hp]

theorem incStep_grid_ir (b : Board) (xy p : Pos) :
    ((incStep b xy).grid p).ir = (b.grid p).ir := by
  unfold incStep
  by_cases hp : p = xy
  · subst hp
    rw [Board.setCell_grid_same]
  · rw [Board.setCell_grid_other _ _ _ _ hp]

theorem incStep_grid_jr (b : Board) (xy p : Pos) :
    ((incStep b xy).grid p).jr = (b.grid p).jr := by
  unfold incStep
  by_cases hp : p = xy
  · subst hp
    rw [Board.setCell_grid_same]
  · rw [Board.setCell_grid_other _ _ _ _ hp]

theorem foldl_incStep_d (l : List Pos) : ∀ b : Board, (l.foldl incStep b).d = b.d := by
  induction l with
  | nil => intro b; rfl
  | cons x xs ih => intro b; rw [List.foldl_cons, ih, incStep_d]

theorem countPos_nil (p : Pos) : countPos [] p = 0 := rfl

theorem countPos_cons (x : Pos) (xs : List Pos) (p : Pos) :
    countPos (x :: xs) p = countPos xs p + (if x = p then 1 else 0) := by
  unfold countPos
  by_cases hx : x = p
  · rw [if_pos hx, List.filter_cons_of_pos (by simpa using hx), List.length_cons]
  · rw [if_neg hx, List.filter_cons_of_neg (by simpa using hx), add_zero]

theorem countPos_eq_zero (xs : List Pos) (p : Pos) (h : p ∉ xs) : countPos xs p = 0 := by
  unfold countPos
  rw [List.length_eq_zero]
  rw [List.filter_eq_nil_iff]
  intro a ha
  simp only [decide_eq_true_eq]
  intro he
  exact h (he ▸ ha)

theorem countPos_eq_ite (l : List Pos) (hnd : l.Nodup) (p : Pos) :
    countPos l p = if p ∈ l then 1 else 0 := by
  induction l with
  | nil => simp [countPos_nil]
  | cons x xs ih =>
    obtain ⟨hx, hnd2⟩ := List.nodup_cons.mp hnd
    rw [countPos_cons]
    by_cases hxp : x = p
    · subst hxp
      rw [ih hnd2, if_neg hx, if_pos rfl, if_pos (List.mem_cons_self x xs)]
    · rw [ih hnd2, if_neg hxp]
      by_cases hmem : p ∈ xs
      · rw [if_pos hmem, if_pos (List.mem_cons_of_mem x hmem), add_zero]
      · rw [if_neg hmem, if_neg (by
          intro hc
          rcases List.mem_cons.mp hc with hc1 | hc2
          · exact hxp hc1.symm
          · exact hmem hc2)]

theorem foldl_incStep_value (l : List Pos) : ∀ (b : Board) (p : Pos),
    ((l.foldl incStep b).grid p).value = (b.grid p).value + (countPos l p : Int) := by
  induction l with
  | nil =>
    intro b p
    rw [List.foldl_nil, countPos_nil]
    simp
  | cons x xs ih =>
    intro b p
    rw [List.foldl_cons, ih, incStep_grid_value, countPos_cons]
    push_cast
    ring

theorem foldl_incStep_view (l : List Pos) : ∀ (b : Board) (p : Pos),
    ((l.foldl incStep b).grid p).view = (b.grid p).view := by
  induction l with
  | nil => intro b p; rfl
  | cons x xs ih => intro b p; rw [List.foldl_cons, ih, incStep_grid_view]

theorem foldl_incStep_ir (l : List Pos) : ∀ (b : Board) (p : Pos),
    ((l.foldl incStep b).grid p).ir = (b.grid p).ir := by
  induction l with
  | nil => intro b p; rfl
  | cons x xs ih => intro b p; rw [List.foldl_cons, ih, incStep_grid_ir]

theorem foldl_incStep_jr (l : List Pos) : ∀ (b : Board) (p : Pos),
    ((l.foldl incStep b).grid p).jr = (b.grid p).jr := by
  induction l with
  | nil => intro b p; rfl
  | cons x xs ih => intro b p; rw [List.foldl_cons, ih, incStep_grid_jr]

theorem Board.increment_d (b : Board) (tup : Pos) : (b.increment tup).d = b.d :=
  foldl_incStep_d _ b

theorem Board.increment_value (b : Board) (tup p : Pos) :
    ((b.increment tup).grid p).value
      = (b.grid p).value + (countPos (b.iter_neighbors tup) p : Int) :=
  foldl_incStep_value _ b p

theorem Board.increment_WF (b : Board) (tup : Pos) (h : b.WF) : (b.increment tup).WF := by
  intro p
  unfold Board.increment
  rw [foldl_incStep_ir, foldl_incStep_jr, foldl_incStep_d]
  exact h p

theorem Board.increment_value_char (b : Board) (hd : 2 ≤ b.d) (hwf : b.WF) (tup : Pos)
    (ht : inRange b.d tup) (p : Pos) :
    ((b.increment tup).grid p).value = (b.grid p).value +
      (if inRange b.d p ∧ adjacent tup p ∧ ¬ (b.grid p).value < 0 then 1 else 0) := by
  rw [Board.increment_value,
    countPos_eq_ite (b.iter_neighbors tup) (Board.iter_neighbors_nodup b tup)]
  rw [if_congr (Board.mem_iter_neighbors hd hwf ht p) rfl rfl]
  congr 1
  split
  · rfl
  · rfl

/-! ## Mine placement -/

theorem Board.setCell_WF (b : Board) (p : Pos) (c : Cell) (h : b.WF)
    (hir : c.ir = (b.grid p).ir) (hjr : c.jr = (b.grid p).jr) : (b.setCell p c).WF := by
  intro q
  rw [Board.setCell_d]
  by_cases hq : q = p
  · subst hq
    rw [Board.setCell_grid_same, hir, hjr]
    exact h q
  · rw [Board.setCell_grid_other _ _ _ _ hq]
    exact h q

theorem Board.placeMine_d (b : Board) (tup : Pos) : (b.placeMine tup).d = b.d := by
  unfold Board.placeMine
  rw [Board.increment_d, Board.setCell_d]

theorem Board.placeMine_WF (b : Board) (tup : Pos) (h : b.WF) : (b.placeMine tup).WF := by
  unfold Board.placeMine
  exact Board.increment_WF _ _ (Board.setCell_WF b tup _ h rfl rfl)

theorem Board.placeMines_d (ms : List Pos) : ∀ b : Board, (b.placeMines ms).d = b.d := by
  induction ms with
  | nil => intro b; rfl
  | cons m ms ih => intro b; rw [Board.placeMines, ih, Board.placeMine_d]

theorem Board.placeMines_WF (ms : List Pos) :
    ∀ b : Board, b.WF → (b.placeMines ms).WF := by
  induction ms with
  | nil => intro b h; exact h
  | cons m ms ih => intro b h; exact ih _ (Board.placeMine_WF b m h)

theorem minesAdj_nil (p : Pos) : minesAdj p [] = 0 := rfl

theorem minesAdj_append (p : Pos) (l1 l2 : List Pos) :
    minesAdj p (l1 ++ l2) = minesAdj p l1 + minesAdj p l2 := by
  unfold minesAdj
  rw [List.filter_append, List.length_append]

theorem minesAdj_singleton (p m : Pos) :
    minesAdj p [m] = if adjacent p m then 1 else 0 := by
  unfold minesAdj
  by_cases h : adjacent p m
  · rw [if_pos h, List.filter_cons_of_pos (by simpa using h)]
    rfl
  · rw [if_neg h, List.filter_cons_of_neg (by simpa using h)]
    rfl

theorem minesAdj_perm (p : Pos) {l1 l2 : List Pos} (h : l1.Perm l2) :
    minesAdj p l1 = minesAdj p l2 :=
  (h.filter _).length_eq

/-- The placement invariant: after placing `placed` and then `ms` (all draws
distinct and in range), every mine cell holds the sentinel -1 and every other
cell holds the number of already placed mines adjacent to it. -/
theorem Board.placeMines_spec (ms : List Pos) :
    ∀ (b : Board) (placed : List Pos),
      2 ≤ b.d → b.WF →
      (∀ m ∈ ms, inRange b.d m) → ms.Nodup → (∀ m ∈ ms, m ∉ placed) →
      (∀ q, inRange b.d q → q ∈ placed → (b.grid q).value = -1) →
      (∀ q, inRange b.d q → q ∉ placed → (b.grid q).value = (minesAdj q placed : Int)) →
      ∀ p, inRange b.d p →
        ((p ∈ placed ++ ms → ((b.placeMines ms).grid p).value = -1) ∧
         (p ∉ placed ++ ms →
           ((b.placeMines ms).grid p).value = (minesAdj p (placed ++ ms) : Int))) := by
  induction ms with
  | nil =>
    intro b placed _ _ _ _ _ hmine hsafe p hp
    rw [List.append_nil]
    exact ⟨hmine p hp, hsafe p hp⟩
  | cons m ms ih =>
    intro b placed hd hwf hms hnd hdisj hmine hsafe p hp
    have hm_in : inRange b.d m := hms m (List.mem_cons_self m ms)
    have hm_not_placed : m ∉ placed := hdisj m (List.mem_cons_self m ms)
    -- the board after setting the sentinel at m
    set b1 := b.setCell m { b.grid m with value := -1 } with hb1
    have hb1d : b1.d = b.d := Board.setCell_d b m _
    have hb1wf : b1.WF := Board.setCell_WF b m _ hwf rfl rfl
    have hb1m : (b1.grid m).value = -1 := by
      rw [hb1, Board.setCell_grid_same]
    have hb1other : ∀ q, q ≠ m → b1.grid q = b.grid q := by
      intro q hq
      rw [hb1, Board.setCell_grid_other _ _ _ _ hq]
    -- the board after the increment pass of placing m
    have hchar : ∀ q, ((b1.increment m).grid q).value = (b1.grid q).value +
        (if inRange b.d q ∧ adjacent m q ∧ ¬ (b1.grid q).value < 0 then 1 else 0) := by
      intro q
      have := Board.increment_value_char b1 (by rwa [hb1d]) hb1wf m (by rwa [hb1d]) q
      rwa [hb1d] at this
    have hplace_d : (b.placeMine m).d = b.d := Board.placeMine_d b m
    have hplace_wf : (b.placeMine m).WF := Board.placeMine_WF b m hwf
    -- invariant for the recursive call
    have hmine2 : ∀ q, inRange (b.placeMine m).d q → q ∈ placed ++ [m] →
        ((b.placeMine m).grid q).value = -1 := by
      intro q hq hqmem
      show ((b1.increment m).grid q).value = -1
      rcases List.mem_append.mp hqmem with hq1 | hq2
      · have hqm : q ≠ m := fun hh => hm_not_placed (hh ▸ hq1)
        have hv : (b1.grid q).value = -1 := by
          rw [hb1other q hqm]
          exact hmine q (by rwa [hplace_d] at hq) hq1
        rw [hchar q, hv, if_neg]
        · ring
        · intro hc
          exact hc.2.2 (by decide)
      · have hqm : q = m := by simpa using hq2
        subst hqm
        rw [hchar q, hb1m, if_neg]
        · ring
        · intro hc
          exact hc.2.2 (by decide)
    have hsafe2 : ∀ q, inRange (b.placeMine m).d q → q ∉ placed ++ [m] →
        ((b.placeMine m).grid q).value = (minesAdj q (placed ++ [m]) : Int) := by
      intro q hq hqmem
      have hq' : inRange b.d q := by rwa [hplace_d] at hq
      have hq_placed : q ∉ placed := fun hh => hqmem (List.mem_append.mpr (Or.inl hh))
      have hq_m : q ≠ m := fun hh => hqmem (List.mem_append.mpr (Or.inr (by simp [hh])))
      have hv : (b1.grid q).value = (minesAdj q placed : Int) := by
        rw [hb1other q hq_m]
        exact hsafe q hq' hq_placed
      show ((b1.increment m).grid q).value = _
      rw [hchar q, hv, minesAdj_append, minesAdj_singleton]
      have hnn : ¬ (minesAdj q placed : Int) < 0 := not_lt.mpr (Int.natCast_nonneg _)
      by_cases hadj : adjacent m q
      · rw [if_pos ⟨hq', hadj, hnn⟩,
          if_pos ((adjacent_comm q m).mpr hadj)]
        push_cast
        ring
      · rw [if_neg (fun hc => hadj hc.2.1),
          if_neg (fun hc => hadj ((adjacent_comm q m).mp hc))]
        push_cast
        ring
    have hdisj2 : ∀ m2 ∈ ms, m2 ∉ placed ++ [m] := by
      intro m2 hm2 hc
      rcases List.mem_append.mp hc with hc1 | hc2
      · exact hdisj m2 (List.mem_cons_of_mem m hm2) hc1
      · have : m2 = m := by simpa using hc2
        exact (List.nodup_cons.mp hnd).1 (this ▸ hm2)
    have := ih (b.placeMine m) (placed ++ [m]) (by rwa [hplace_d])
      hplace_wf (fun m2 hm2 => by rw [hplace_d]; exact hms m2 (List.mem_cons_of_mem m hm2))
      (List.nodup_cons.mp hnd).2 hdisj2 hmine2 hsafe2 p (by rwa [hplace_d])
    rw [List.append_assoc, List.singleton_append] at this
    exact this

/-- Specialization to a fully built board. -/
theorem mkBoard_values (d diff : Nat) (mines : List Pos) (hd : 2 ≤ d)
    (hm : ∀ m ∈ mines, inRange d m) (hnd : mines.Nodup) (p : Pos) (hp : inRange d p) :
    (p ∈ mines → ((mkBoard d diff mines).grid p).value = -1) ∧
    (p ∉ mines → ((mkBoard d diff mines).grid p).value = (minesAdj p mines : Int)) := by
  have hinit_wf : (Board.init d diff).WF := fun q => ⟨rfl, rfl⟩
  have h := Board.placeMines_spec mines (Board.init d diff) [] hd hinit_wf hm hnd
    (by intro q hq hc; simp at hc)
    (by intro q hq hc; simp at hc)
    (by intro q hq hc; rw [minesAdj_nil]; rfl)
    p hp
  rw [List.nil_append] at h
  exact h

/-! ## Claim C5: adjacency counts of non-mine cells -/

/-- C5: on any constructed board (distinct in-range mine draws), every
non-mine cell's value is the number of mines adjacent to it, mine cells are
exactly the drawn positions, and any other draw order (any permutation of
the draws) gives non-mine cells the same value. -/
theorem C5_adjacency (d diff : Nat) (mines : List Pos) (hd : 2 ≤ d)
    (hm : ∀ m ∈ mines, inRange d m) (hnd : mines.Nodup) :
    (∀ p, inRange d p → p ∉ mines →
        ((mkBoard d diff mines).grid p).value = (minesAdj p mines : Int)) ∧
    (∀ q, inRange d q → (((mkBoard d diff mines).grid q).value < 0 ↔ q ∈ mines)) ∧
    (∀ mines2, mines2.Perm mines → ∀ p, inRange d p → p ∉ mines →
        ((mkBoard d diff mines2).grid p).value
          = ((mkBoard d diff mines).grid p).value) := by
  refine ⟨?_, ?_, ?_⟩
  · intro p hp hpm
    exact (mkBoard_values d diff mines hd hm hnd p hp).2 hpm
  · intro q hq
    constructor
    · intro hlt
      by_contra hqm
      rw [(mkBoard_values d diff mines hd hm hnd q hq).2 hqm] at hlt
      exact absurd hlt (not_lt.mpr (Int.natCast_nonneg _))
    · intro hqm
      rw [(mkBoard_values d diff mines hd hm hnd q hq).1 hqm]
      decide
  · intro mines2 hperm p hp hpm
    have hm2 : ∀ m ∈ mines2, inRange d m := fun m hmem => hm m (hperm.mem_iff.mp hmem)
    have hnd2 : mines2.Nodup := (hperm.nodup_iff).mpr hnd
    have hpm2 : p ∉ mines2 := fun hc => hpm (hperm.mem_iff.mp hc)
    rw [(mkBoard_values d diff mines2 hd hm2 hnd2 p hp).2 hpm2,
      (mkBoard_values d diff mines hd hm hnd p hp).2 hpm,
      minesAdj_perm p hperm]

/-- C5 (witness): on the example board, the non-mine cell `(1, 1)` counts its
two adjacent mines. -/
theorem C5_adjacency_witness :
    ((mkBoard 5 0 exMines).grid (1, 1)).value = (minesAdj (1, 1) exMines : Int) :=
  (C5_adjacency 5 0 exMines (by decide) (by decide) (by decide)).1 (1, 1)
    (by decide) (by decide)

/-! ## The neighbor pass of the cascade -/

theorem traverseStep_fst (acc : Board × List Pos) (ij : Pos) :
    (traverseStep acc ij).1 = acc.1.setCell ij ((acc.1.grid ij).update_view false).1 := by
  unfold traverseStep
  dsimp only
  split
  · rfl
  · rfl

theorem traverseStep_snd (acc : Board × List Pos) (ij : Pos) :
    (traverseStep acc ij).2 =
      if ((acc.1.grid ij).update_view false).2 = some true
      then acc.2 ++ [ij] else acc.2 := by
  unfold traverseStep
  dsimp only
  split
  · rfl
  · rfl

theorem Cell.update_view_false_save_iff (c : Cell) :
    ((c.update_view false).2 = some true) ↔ (c.value = 0 ∧ c.view.truthy = true) := by
  by_cases h0 : c.value < 0
  · rw [Cell.update_view_mine c h0]
    constructor
    · intro h
      cases h
    · intro h
      omega
  · by_cases h1 : c.value = 0
    · by_cases h2 : c.view.truthy = true
      · rw [Cell.update_view_zero_truthy c h0 h1 h2]
        simp [h1, h2]
      · rw [Cell.update_view_zero_falsy c h0 h1 h2]
        simp only [Bool.not_eq_true] at h2
        simp [h2]
    · rw [Cell.update_view_numbered c h0 h1]
      simp [h1]

theorem Cell.update_view_false_evolve (c : Cell) (h : ¬ c.value < 0) :
    ViewEvolve c.value c.view ((c.update_view false).1).view := by
  unfold ViewEvolve
  by_cases h1 : c.value = 0
  · by_cases h2 : c.view.truthy = true
    · rw [Cell.update_view_zero_truthy c h h1 h2]
      exact Or.inr (Or.inl ⟨h1, h2, rfl⟩)
    · rw [Cell.update_view_zero_falsy c h h1 h2]
      exact Or.inl rfl
  · rw [Cell.update_view_numbered c h h1]
    exact Or.inr (Or.inr ⟨by omega, rfl⟩)

theorem Board.iter_neighbors_props (b : Board) (tup : Pos) :
    ∀ a ∈ b.iter_neighbors tup, ¬ (b.grid a).value < 0 ∧ tup ≠ a := by
  rw [Board.iter_neighbors_eq]
  intro a ha
  rw [List.mem_flatMap] at ha
  obtain ⟨k, _, ha⟩ := ha
  rw [List.mem_flatMap] at ha
  obtain ⟨l, _, ha⟩ := ha
  by_cases hc : (b.grid (tup.1 + k, tup.2 + l)).value < 0 ∨ tup = (tup.1 + k, tup.2 + l)
  · rw [if_pos hc] at ha
    simp at ha
  · rw [if_neg hc] at ha
    rw [List.mem_singleton] at ha
    subst ha
    push_neg at hc
    exact ⟨not_lt.mpr hc.1, hc.2⟩

theorem foldl_traverseStep_spec (ns : List Pos) (hnd : ns.Nodup) :
    ∀ (b : Board) (acc : List Pos),
      (∀ p, p ∉ ns → (ns.foldl traverseStep (b, acc)).1.grid p = b.grid p) ∧
      (∀ p, p ∈ ns → (ns.foldl traverseStep (b, acc)).1.grid p
          = ((b.grid p).update_view false).1) ∧
      (ns.foldl traverseStep (b, acc)).2
          = acc ++ ns.filter fun p => decide (((b.grid p).update_view false).2 = some true) := by
  induction ns with
  | nil =>
    intro b acc
    refine ⟨fun p _ => rfl, fun p hp => absurd hp (List.not_mem_nil p), ?_⟩
    simp
  | cons ij ns ih =>
    intro b acc
    obtain ⟨hij, hnd2⟩ := List.nodup_cons.mp hnd
    rw [List.foldl_cons]
    have hstep : traverseStep (b, acc) ij =
        (b.setCell ij ((b.grid ij).update_view false).1,
         if ((b.grid ij).update_view false).2 = some true then acc ++ [ij] else acc) := by
      rw [Prod.ext_iff]
      exact ⟨traverseStep_fst (b, acc) ij, traverseStep_snd (b, acc) ij⟩
    rw [hstep]
    set b1 := b.setCell ij ((b.grid ij).update_view false).1 with hb1
    have hb1_other : ∀ p, p ≠ ij → b1.grid p = b.grid p := by
      intro p hp
      rw [hb1, Board.setCell_grid_other _ _ _ _ hp]
    have hb1_same : b1.grid ij = ((b.grid ij).update_view false).1 := by
      rw [hb1, Board.setCell_grid_same]
    obtain ⟨g1, g2, g3⟩ := ih hnd2 b1
      (if ((b.grid ij).update_view false).2 = some true then acc ++ [ij] else acc)
    refine ⟨?_, ?_, ?_⟩
    · intro p hp
      have hp_ns : p ∉ ns := fun hh => hp (List.mem_cons_of_mem ij hh)
      have hp_ij : p ≠ ij := fun hh => hp (hh ▸ List.mem_cons_self ij ns)
      rw [g1 p hp_ns, hb1_other p hp_ij]
    · intro p hp
      rcases List.mem_cons.mp hp with hp1 | hp2
      · subst hp1
        rw [g1 p hij, hb1_same]
      · rw [g2 p hp2, hb1_other p (fun hh => hij (hh ▸ hp2))]
    · rw [g3]
      have hfc : (ns.filter fun p =>
            decide (((b1.grid p).update_view false).2 = some true))
          = ns.filter fun p => decide (((b.grid p).update_view false).2 = some true) := by
        apply List.filter_congr
        intro p hp
        rw [hb1_other p (fun hh => hij (hh ▸ hp))]
      rw [hfc, List.filter_cons]
      by_cases hcond : ((b.grid ij).update_view false).2 = some true
      · rw [if_pos hcond, if_pos (by simpa using hcond)]
        rw [List.append_assoc, List.singleton_append]
      · rw [if_neg hcond, if_neg (by simpa using hcond)]

theorem mem_posList (d : Nat) (p : Pos) : p ∈ posList d ↔ inRange d p := by
  unfold posList
  simp only [List.mem_flatMap, List.mem_map, List.mem_range]
  rw [inRange_def]
  constructor
  · rintro ⟨i, hi, j, hj, hp⟩
    subst hp
    refine ⟨?_, ?_, ?_, ?_⟩
    all_goals simp only [Int.ofNat_eq_coe]
    all_goals omega
  · rintro ⟨h0, h1, h2, h3⟩
    refine ⟨p.1.toNat, by omega, p.2.toNat, by omega, ?_⟩
    have e1 : Int.ofNat p.1.toNat = p.1 := by
      rw [Int.ofNat_eq_coe, Int.toNat_of_nonneg h0]
    have e2 : Int.ofNat p.2.toNat = p.2 := by
      rw [Int.ofNat_eq_coe, Int.toNat_of_nonneg h2]
    rw [e1, e2]

theorem posList_length (d : Nat) : (posList d).length = d * d := by
  unfold posList
  rw [List.length_flatMap]
  have h : ∀ l : List Nat,
      (l.map (List.length ∘ fun i =>
        (List.range d).map fun j => (Int.ofNat i, Int.ofNat j))).sum = l.length * d := by
    intro l
    induction l with
    | nil => simp
    | cons x xs ih =>
      rw [List.map_cons, List.sum_cons, ih, List.length_cons]
      rw [Function.comp_apply, List.length_map, List.length_range]
      ring
  rw [h, List.length_range]

theorem truthyZCount_le (b : Board) : truthyZCount b ≤ b.d * b.d := by
  unfold truthyZCount
  calc (posList b.d).countP _ ≤ (posList b.d).length := List.countP_le_length _
  _ = b.d * b.d := posList_length b.d

theorem countP_lt_of_witness {α : Type} (l : List α) (f g : α → Bool)
    (hmono : ∀ a ∈ l, g a = true → f a = true) (a : α) (ha : a ∈ l)
    (hf : f a = true) (hg : g a = false) : l.countP g < l.countP f := by
  induction l with
  | nil => simp at ha
  | cons x xs ih =>
    rw [List.countP_cons, List.countP_cons]
    rcases List.mem_cons.mp ha with ha1 | ha2
    · subst ha1
      rw [hf, hg]
      have h2 : xs.countP g ≤ xs.countP f :=
        List.countP_mono_left fun p hp => hmono p (List.mem_cons_of_mem a hp)
      simp
      omega
    · have hlt : xs.countP g < xs.countP f :=
        ih (fun p hp => hmono p (List.mem_cons_of_mem x hp)) ha2
      have hx : (if g x = true then 1 else 0) ≤ (if f x = true then 1 else 0) := by
        by_cases hgx : g x = true
        · rw [if_pos hgx, if_pos (hmono x (List.mem_cons_self x xs) hgx)]
        · rw [if_neg hgx]
          omega
      omega

/-! ## Shape and view evolution under the cascade -/

theorem Cell.eq_of_fields {c1 c2 : Cell} (hv : c1.value = c2.value)
    (hw : c1.view = c2.view) (hi : c1.ir = c2.ir) (hj : c1.jr = c2.jr) : c1 = c2 := by
  cases c1
  cases c2
  simp_all

theorem traverseStep_fst_cell (acc : Board × List Pos) (ij p : Pos) :
    ((traverseStep acc ij).1.grid p).value = (acc.1.grid p).value ∧
    ((traverseStep acc ij).1.grid p).ir = (acc.1.grid p).ir ∧
    ((traverseStep acc ij).1.grid p).jr = (acc.1.grid p).jr := by
  rw [traverseStep_fst]
  by_cases hp : p = ij
  · subst hp
    rw [Board.setCell_grid_same]
    exact ⟨Cell.update_view_value _ _, Cell.update_view_ir _ _, Cell.update_view_jr _ _⟩
  · rw [Board.setCell_grid_other _ _ _ _ hp]
    exact ⟨rfl, rfl, rfl⟩

theorem foldl_traverseStep_cell (ns : List Pos) :
    ∀ (acc : Board × List Pos) (p : Pos),
      ((ns.foldl traverseStep acc).1.grid p).value = (acc.1.grid p).value ∧
      ((ns.foldl traverseStep acc).1.grid p).ir = (acc.1.grid p).ir ∧
      ((ns.foldl traverseStep acc).1.grid p).jr = (acc.1.grid p).jr := by
  induction ns with
  | nil => intro acc p; exact ⟨rfl, rfl, rfl⟩
  | cons x xs ih =>
    intro acc p
    rw [List.foldl_cons]
    obtain ⟨h1, h2, h3⟩ := ih (traverseStep acc x) p
    obtain ⟨g1, g2, g3⟩ := traverseStep_fst_cell acc x p
    exact ⟨h1.trans g1, h2.trans g2, h3.trans g3⟩

theorem Board.traverseFuel_cell (fuel : Nat) :
    ∀ (b : Board) (tup p : Pos),
      ((Board.traverseFuel fuel b tup).grid p).value = (b.grid p).value ∧
      ((Board.traverseFuel fuel b tup).grid p).ir = (b.grid p).ir ∧
      ((Board.traverseFuel fuel b tup).grid p).jr = (b.grid p).jr := by
  induction fuel with
  | zero => intro b tup p; exact ⟨rfl, rfl, rfl⟩
  | succ fuel ih =>
    intro b tup p
    have hdef : Board.traverseFuel (fuel + 1) b tup =
        (((b.iter_neighbors tup).foldl traverseStep (b, [])).2).foldl
          (Board.traverseFuel fuel)
          (((b.iter_neighbors tup).foldl traverseStep (b, [])).1) := rfl
    rw [hdef]
    obtain ⟨p1, p2, p3⟩ := foldl_traverseStep_cell (b.iter_neighbors tup) (b, []) p
    generalize ((b.iter_neighbors tup).foldl traverseStep (b, [])).2 = cache
    generalize ((b.iter_neighbors tup).foldl traverseStep (b, [])).1 = b1 at p1 p2 p3 ⊢
    have hfold : ∀ (cs : List Pos) (bb : Board) (q : Pos),
        ((cs.foldl (Board.traverseFuel fuel) bb).grid q).value = (bb.grid q).value ∧
        ((cs.foldl (Board.traverseFuel fuel) bb).grid q).ir = (bb.grid q).ir ∧
        ((cs.foldl (Board.traverseFuel fuel) bb).grid q).jr = (bb.grid q).jr := by
      intro cs
      induction cs with
      | nil => intro bb q; exact ⟨rfl, rfl, rfl⟩
      | cons c cs ih2 =>
        intro bb q
        rw [List.foldl_cons]
        obtain ⟨h1, h2, h3⟩ := ih2 (Board.traverseFuel fuel bb c) q
        obtain ⟨g1, g2, g3⟩ := ih bb c q
        exact ⟨h1.trans g1, h2.trans g2, h3.trans g3⟩
    obtain ⟨h1, h2, h3⟩ := hfold cache b1 p
    exact ⟨h1.trans p1, h2.trans p2, h3.trans p3⟩

theorem Board.traverseFuel_WF (fuel : Nat) (b : Board) (tup : Pos) (h : b.WF) :
    (Board.traverseFuel fuel b tup).WF := by
  intro p
  obtain ⟨_, h2, h3⟩ := Board.traverseFuel_cell fuel b tup p
  rw [h2, h3, Board.traverseFuel_d]
  exact h p

theorem ViewEvolve.refl' (value : Int) (v : View) : ViewEvolve value v v := Or.inl rfl

theorem ViewEvolve.trans' {value : Int} {v1 v2 v3 : View}
    (h12 : ViewEvolve value v1 v2) (h23 : ViewEvolve value v2 v3) :
    ViewEvolve value v1 v3 := by
  unfold ViewEvolve at *
  rcases h23 with h | ⟨hz, ht, hb⟩ | ⟨hp, hn⟩
  · subst h
    exact h12
  · rcases h12 with h | ⟨_, _, hb1⟩ | ⟨hp1, hn1⟩
    · subst h
      exact Or.inr (Or.inl ⟨hz, ht, hb⟩)
    · rw [hb1] at ht
      cases ht
    · omega
  · exact Or.inr (Or.inr ⟨hp, hn⟩)

theorem Board.traverseFuel_evolve (fuel : Nat) :
    ∀ (b : Board) (tup p : Pos),
      ViewEvolve (b.grid p).value (b.grid p).view
        ((Board.traverseFuel fuel b tup).grid p).view := by
  induction fuel with
  | zero => intro b tup p; exact ViewEvolve.refl' _ _
  | succ fuel ih =>
    intro b tup p
    have hdef : Board.traverseFuel (fuel + 1) b tup =
        (((b.iter_neighbors tup).foldl traverseStep (b, [])).2).foldl
          (Board.traverseFuel fuel)
          (((b.iter_neighbors tup).foldl traverseStep (b, [])).1) := rfl
    rw [hdef]
    obtain ⟨spec1, spec2, _⟩ :=
      foldl_traverseStep_spec (b.iter_neighbors tup) (Board.iter_neighbors_nodup b tup) b []
    have hprops := Board.iter_neighbors_props b tup
    obtain ⟨pv, _, _⟩ := foldl_traverseStep_cell (b.iter_neighbors tup) (b, []) p
    have h1 : ViewEvolve (b.grid p).value (b.grid p).view
        ((((b.iter_neighbors tup).foldl traverseStep (b, [])).1).grid p).view := by
      by_cases hp : p ∈ b.iter_neighbors tup
      · rw [spec2 p hp]
        exact Cell.update_view_false_evolve _ (hprops p hp).1
      · rw [spec1 p hp]
        exact ViewEvolve.refl' _ _
    have hfold : ∀ (cs : List Pos) (bb : Board) (q : Pos),
        ViewEvolve (bb.grid q).value (bb.grid q).view
          ((cs.foldl (Board.traverseFuel fuel) bb).grid q).view := by
      intro cs
      induction cs with
      | nil => intro bb q; exact ViewEvolve.refl' _ _
      | cons c cs ih2 =>
        intro bb q
        rw [List.foldl_cons]
        have e1 := ih bb c q
        have e2 := ih2 (Board.traverseFuel fuel bb c) q
        rw [(Board.traverseFuel_cell fuel bb c q).1] at e2
        exact e1.trans' e2
    have h2 := hfold (((b.iter_neighbors tup).foldl traverseStep (b, [])).2)
      (((b.iter_neighbors tup).foldl traverseStep (b, [])).1) p
    rw [pv] at h2
    exact h1.trans' h2

theorem Board.traverseFuel_zero_cases (fuel : Nat) (b : Board) (tup p : Pos)
    (hz : (b.grid p).value = 0) :
    ((Board.traverseFuel fuel b tup).grid p).view = (b.grid p).view ∨
      ((b.grid p).view.truthy = true ∧
        ((Board.traverseFuel fuel b tup).grid p).view = View.blank) := by
  have h := Board.traverseFuel_evolve fuel b tup p
  unfold ViewEvolve at h
  rcases h with h | ⟨_, ht, hb⟩ | ⟨hp, _⟩
  · exact Or.inl h
  · exact Or.inr ⟨ht, hb⟩
  · omega

theorem Board.traverseFuel_zero_falsy_fix (fuel : Nat) (b : Board) (tup p : Pos)
    (hz : (b.grid p).value = 0) (hf : ¬ (b.grid p).view.truthy = true) :
    ((Board.traverseFuel fuel b tup).grid p).view = (b.grid p).view := by
  rcases Board.traverseFuel_zero_cases fuel b tup p hz with h | ⟨ht, _⟩
  · exact h
  · exact absurd ht hf

theorem Board.traverseFuel_pos_num_fix (fuel : Nat) (b : Board) (tup p : Pos)
    (hp : 0 < (b.grid p).value) (hv : (b.grid p).view = View.num (b.grid p).value) :
    ((Board.traverseFuel fuel b tup).grid p).view = View.num (b.grid p).value := by
  have h := Board.traverseFuel_evolve fuel b tup p
  unfold ViewEvolve at h
  rcases h with h | ⟨hz, _, _⟩ | ⟨_, hn⟩
  · rw [h, hv]
  · omega
  · exact hn

theorem Board.traverseFuel_mine_fix (fuel : Nat) (b : Board) (tup p : Pos)
    (hm : (b.grid p).value < 0) :
    (Board.traverseFuel fuel b tup).grid p = b.grid p := by
  obtain ⟨h1, h2, h3⟩ := Board.traverseFuel_cell fuel b tup p
  have h := Board.traverseFuel_evolve fuel b tup p
  unfold ViewEvolve at h
  rcases h with h | ⟨hz, _, _⟩ | ⟨hp, _⟩
  · exact Cell.eq_of_fields h1 h h2 h3
  · omega
  · omega

/-! ## The cascade touches only the region and its border -/

theorem zstep_congr {b b2 : Board} (hd : b2.d = b.d)
    (hv : ∀ p, (b2.grid p).value = (b.grid p).value) (p q : Pos) :
    zstep b2 p q ↔ zstep b p q := by
  unfold zstep
  rw [hd, hv q]

theorem ZReach_congr {b b2 : Board} (hd : b2.d = b.d)
    (hv : ∀ p, (b2.grid p).value = (b.grid p).value) (s p : Pos) :
    ZReach b2 s p ↔ ZReach b s p := by
  unfold ZReach
  constructor
  · exact Relation.ReflTransGen.mono fun x y hxy => (zstep_congr hd hv x y).mp hxy
  · exact Relation.ReflTransGen.mono fun x y hxy => (zstep_congr hd hv x y).mpr hxy

theorem Board.cache_spec (b : Board) (hd : 2 ≤ b.d) (hwf : b.WF) (tup : Pos)
    (ht : inRange b.d tup) :
    ∀ c ∈ ((b.iter_neighbors tup).foldl traverseStep (b, [])).2,
      zstep b tup c ∧ (b.grid c).view.truthy = true := by
  obtain ⟨_, _, spec3⟩ :=
    foldl_traverseStep_spec (b.iter_neighbors tup) (Board.iter_neighbors_nodup b tup) b []
  intro c hc
  rw [spec3, List.nil_append, List.mem_filter] at hc
  obtain ⟨hmem, hsave⟩ := hc
  rw [decide_eq_true_eq, Cell.update_view_false_save_iff] at hsave
  obtain ⟨hrange, hadj, _⟩ := (Board.mem_iter_neighbors hd hwf ht c).mp hmem
  exact ⟨⟨hrange, hadj, hsave.1⟩, hsave.2⟩

theorem Board.traverseFuel_frame (fuel : Nat) :
    ∀ (b : Board) (tup : Pos), 2 ≤ b.d → b.WF → inRange b.d tup →
      ∀ p, (Board.traverseFuel fuel b tup).grid p ≠ b.grid p →
        inRange b.d p ∧ ¬ (b.grid p).value < 0 ∧
          ∃ q, ZReach b tup q ∧ adjacent q p := by
  induction fuel with
  | zero =>
    intro b tup _ _ _ p hp
    exact absurd rfl hp
  | succ fuel ih =>
    intro b tup hd hwf ht p hp
    have hdef : Board.traverseFuel (fuel + 1) b tup =
        (((b.iter_neighbors tup).foldl traverseStep (b, [])).2).foldl
          (Board.traverseFuel fuel)
          (((b.iter_neighbors tup).foldl traverseStep (b, [])).1) := rfl
    rw [hdef] at hp
    obtain ⟨spec1, spec2, _⟩ :=
      foldl_traverseStep_spec (b.iter_neighbors tup) (Board.iter_neighbors_nodup b tup) b []
    have hcache := Board.cache_spec b hd hwf tup ht
    obtain ⟨b1v, b1i, b1j⟩ : (∀ q, (((b.iter_neighbors tup).foldl traverseStep (b, [])).1.grid q).value = (b.grid q).value) ∧
        (∀ q, (((b.iter_neighbors tup).foldl traverseStep (b, [])).1.grid q).ir = (b.grid q).ir) ∧
        (∀ q, (((b.iter_neighbors tup).foldl traverseStep (b, [])).1.grid q).jr = (b.grid q).jr) := by
      refine ⟨fun q => ?_, fun q => ?_, fun q => ?_⟩
      · exact (foldl_traverseStep_cell (b.iter_neighbors tup) (b, []) q).1
      · exact (foldl_traverseStep_cell (b.iter_neighbors tup) (b, []) q).2.1
      · exact (foldl_traverseStep_cell (b.iter_neighbors tup) (b, []) q).2.2
    have b1d : (((b.iter_neighbors tup).foldl traverseStep (b, [])).1).d = b.d :=
      foldl_traverseStep_d _ _
    -- the fold over the cache, generalized
    have hfold : ∀ (cs : List Pos) (bb : Board),
        bb.d = b.d → bb.WF → (∀ q, (bb.grid q).value = (b.grid q).value) →
        (∀ c ∈ cs, ZReach b tup c ∧ inRange b.d c) →
        ∀ q, (cs.foldl (Board.traverseFuel fuel) bb).grid q ≠ bb.grid q →
          inRange b.d q ∧ ¬ (b.grid q).value < 0 ∧
            ∃ r, ZReach b tup r ∧ adjacent r q := by
      intro cs
      induction cs with
      | nil =>
        intro bb _ _ _ _ q hq
        exact absurd rfl hq
      | cons c cs ih2 =>
        intro bb hbd hbwf hbv hcs q hq
        rw [List.foldl_cons] at hq
        by_cases hstep : (Board.traverseFuel fuel bb c).grid q = bb.grid q
        · -- the change happened later in the fold
          have hq2 : (cs.foldl (Board.traverseFuel fuel)
              (Board.traverseFuel fuel bb c)).grid q
              ≠ (Board.traverseFuel fuel bb c).grid q := by
            intro he
            exact hq (he.trans hstep)
          exact ih2 (Board.traverseFuel fuel bb c)
            ((Board.traverseFuel_d fuel bb c).trans hbd)
            (Board.traverseFuel_WF fuel bb c hbwf)
            (fun r => ((Board.traverseFuel_cell fuel bb c r).1).trans (hbv r))
            (fun r hr => hcs r (List.mem_cons_of_mem c hr)) q hq2
        · -- the change happened in this sibling's traverse
          have hcc := hcs c (List.mem_cons_self c cs)
          have := ih bb c (by rwa [hbd]) hbwf (by rw [hbd]; exact hcc.2) q hstep
          obtain ⟨hqr, hqv, r, hrr, hra⟩ := this
          rw [hbd] at hqr
          rw [hbv q] at hqv
          refine ⟨hqr, hqv, r, ?_, hra⟩
          have hreq : ZReach b c r := (ZReach_congr hbd hbv c r).mp hrr
          exact Relation.ReflTransGen.trans hcc.1 hreq
    by_cases hp1 : (((b.iter_neighbors tup).foldl traverseStep (b, [])).1).grid p
        = b.grid p
    · -- changed during the recursive folds
      have hq2 : (((b.iter_neighbors tup).foldl traverseStep (b, [])).2.foldl
          (Board.traverseFuel fuel)
          (((b.iter_neighbors tup).foldl traverseStep (b, [])).1)).grid p
          ≠ (((b.iter_neighbors tup).foldl traverseStep (b, [])).1).grid p := by
        intro he
        exact hp (he.trans hp1)
      have hb1wf : (((b.iter_neighbors tup).foldl traverseStep (b, [])).1).WF := by
        intro r
        rw [b1i r, b1j r, b1d]
        exact hwf r
      have := hfold (((b.iter_neighbors tup).foldl traverseStep (b, [])).2)
        (((b.iter_neighbors tup).foldl traverseStep (b, [])).1) b1d hb1wf
        b1v
        (fun c hc => ⟨Relation.ReflTransGen.single (hcache c hc).1,
          (hcache c hc).1.1⟩) p hq2
      exact this
    · -- changed during the neighbor pass: p is a neighbor of tup
      by_cases hmem : p ∈ b.iter_neighbors tup
      · obtain ⟨hrange, hadj, hval⟩ := (Board.mem_iter_neighbors hd hwf ht p).mp hmem
        exact ⟨hrange, hval, tup, Relation.ReflTransGen.refl, hadj⟩
      · rw [spec1 p hmem] at hp1
        exact absurd rfl hp1

/-! ## Bookkeeping for the cascade termination measure -/

theorem foldl_traverseStep_evolve (b : Board) (tup : Pos) (p : Pos) :
    ViewEvolve (b.grid p).value (b.grid p).view
      (((b.iter_neighbors tup).foldl traverseStep (b, [])).1.grid p).view := by
  obtain ⟨spec1, spec2, _⟩ :=
    foldl_traverseStep_spec (b.iter_neighbors tup) (Board.iter_neighbors_nodup b tup) b []
  by_cases hp : p ∈ b.iter_neighbors tup
  · rw [spec2 p hp]
    exact Cell.update_view_false_evolve _ (Board.iter_neighbors_props b tup p hp).1
  · rw [spec1 p hp]
    exact ViewEvolve.refl' _ _

theorem truthyZCount_le_of_evolve (b b2 : Board) (hd : b2.d = b.d)
    (hv : ∀ p, (b2.grid p).value = (b.grid p).value)
    (he : ∀ p, ViewEvolve (b.grid p).value (b.grid p).view (b2.grid p).view) :
    truthyZCount b2 ≤ truthyZCount b := by
  unfold truthyZCount
  rw [hd]
  apply List.countP_mono_left
  intro p _ hdec
  rw [decide_eq_true_eq] at hdec
  rw [decide_eq_true_eq]
  obtain ⟨hz2, ht2⟩ := hdec
  rw [hv p] at hz2
  refine ⟨hz2, ?_⟩
  rcases he p with h | ⟨_, ht, _⟩ | ⟨hpos, _⟩
  · rwa [← h]
  · exact ht
  · omega

theorem Board.traverseFuel_count_le (fuel : Nat) (b : Board) (tup : Pos) :
    truthyZCount (Board.traverseFuel fuel b tup) ≤ truthyZCount b :=
  truthyZCount_le_of_evolve b _ (Board.traverseFuel_d fuel b tup)
    (fun p => (Board.traverseFuel_cell fuel b tup p).1)
    (fun p => Board.traverseFuel_evolve fuel b tup p)

theorem truthyZCount_lt_of_witness (b b2 : Board) (hd : b2.d = b.d)
    (hv : ∀ p, (b2.grid p).value = (b.grid p).value)
    (he : ∀ p, ViewEvolve (b.grid p).value (b.grid p).view (b2.grid p).view)
    (w : Pos) (hw : inRange b.d w) (hwz : (b.grid w).value = 0)
    (hwt : (b.grid w).view.truthy = true) (hw2 : ¬ (b2.grid w).view.truthy = true) :
    truthyZCount b2 < truthyZCount b := by
  unfold truthyZCount
  rw [hd]
  apply countP_lt_of_witness _ _ _ ?_ w ((mem_posList b.d w).mpr hw) ?_ ?_
  · intro p _ hdec
    rw [decide_eq_true_eq] at hdec
    rw [decide_eq_true_eq]
    obtain ⟨hz2, ht2⟩ := hdec
    rw [hv p] at hz2
    refine ⟨hz2, ?_⟩
    rcases he p with h | ⟨_, ht, _⟩ | ⟨hpos, _⟩
    · rwa [← h]
    · exact ht
    · omega
  · rw [decide_eq_true_eq]
    exact ⟨hwz, hwt⟩
  · rw [decide_eq_false_iff_not]
    intro hc
    exact hw2 hc.2

/-! ## Folding the cascade over a work list -/

theorem foldl_traverseFuel_d (fuel : Nat) (cs : List Pos) :
    ∀ bb : Board, (cs.foldl (Board.traverseFuel fuel) bb).d = bb.d := by
  induction cs with
  | nil => intro bb; rfl
  | cons c cs ih =>
    intro bb
    rw [List.foldl_cons, ih, Board.traverseFuel_d]

theorem foldl_traverseFuel_cell (fuel : Nat) (cs : List Pos) :
    ∀ (bb : Board) (q : Pos),
      ((cs.foldl (Board.traverseFuel fuel) bb).grid q).value = (bb.grid q).value ∧
      ((cs.foldl (Board.traverseFuel fuel) bb).grid q).ir = (bb.grid q).ir ∧
      ((cs.foldl (Board.traverseFuel fuel) bb).grid q).jr = (bb.grid q).jr := by
  induction cs with
  | nil => intro bb q; exact ⟨rfl, rfl, rfl⟩
  | cons c cs ih =>
    intro bb q
    rw [List.foldl_cons]
    obtain ⟨h1, h2, h3⟩ := ih (Board.traverseFuel fuel bb c) q
    obtain ⟨g1, g2, g3⟩ := Board.traverseFuel_cell fuel bb c q
    exact ⟨h1.trans g1, h2.trans g2, h3.trans g3⟩

theorem foldl_traverseFuel_WF (fuel : Nat) (cs : List Pos) (bb : Board) (h : bb.WF) :
    (cs.foldl (Board.traverseFuel fuel) bb).WF := by
  intro q
  obtain ⟨_, h2, h3⟩ := foldl_traverseFuel_cell fuel cs bb q
  rw [h2, h3, foldl_traverseFuel_d]
  exact h q

theorem foldl_traverseFuel_evolve (fuel : Nat) (cs : List Pos) :
    ∀ (bb : Board) (q : Pos),
      ViewEvolve (bb.grid q).value (bb.grid q).view
        ((cs.foldl (Board.traverseFuel fuel) bb).grid q).view := by
  induction cs with
  | nil => intro bb q; exact ViewEvolve.refl' _ _
  | cons c cs ih =>
    intro bb q
    rw [List.foldl_cons]
    have e1 := Board.traverseFuel_evolve fuel bb c q
    have e2 := ih (Board.traverseFuel fuel bb c) q
    rw [(Board.traverseFuel_cell fuel bb c q).1] at e2
    exact e1.trans' e2

theorem foldl_traverseFuel_count_le (fuel : Nat) (cs : List Pos) (bb : Board) :
    truthyZCount (cs.foldl (Board.traverseFuel fuel) bb) ≤ truthyZCount bb :=
  truthyZCount_le_of_evolve bb _ (foldl_traverseFuel_d fuel cs bb)
    (fun q => (foldl_traverseFuel_cell fuel cs bb q).1)
    (fun q => foldl_traverseFuel_evolve fuel cs bb q)

theorem foldl_traverseFuel_zero_falsy_fix (fuel : Nat) (cs : List Pos) (bb : Board)
    (q : Pos) (hz : (bb.grid q).value = 0) (hf : ¬ (bb.grid q).view.truthy = true) :
    ((cs.foldl (Board.traverseFuel fuel) bb).grid q).view = (bb.grid q).view := by
  rcases foldl_traverseFuel_evolve fuel cs bb q with h | ⟨_, ht, _⟩ | ⟨hpos, _⟩
  · exact h
  · exact absurd ht hf
  · omega

theorem foldl_traverseFuel_pos_num_fix (fuel : Nat) (cs : List Pos) (bb : Board)
    (q : Pos) (hp : 0 < (bb.grid q).value)
    (hv : (bb.grid q).view = View.num (bb.grid q).value) :
    ((cs.foldl (Board.traverseFuel fuel) bb).grid q).view
      = View.num ((bb.grid q).value) := by
  rcases foldl_traverseFuel_evolve fuel cs bb q with h | ⟨hz, _, _⟩ | ⟨_, hn⟩
  · rw [h, hv]
  · omega
  · exact hn

theorem Settled_foldl_preserved (fuel : Nat) (cs : List Pos) (bb : Board) (c : Pos)
    (h : Settled bb c) : Settled (cs.foldl (Board.traverseFuel fuel) bb) c := by
  intro q hqr hqa
  rw [foldl_traverseFuel_d] at hqr
  obtain ⟨hz, hp⟩ := h q hqr hqa
  obtain ⟨hval, _, _⟩ := foldl_traverseFuel_cell fuel cs bb q
  constructor
  · intro hq0
    rw [hval] at hq0
    rw [foldl_traverseFuel_zero_falsy_fix fuel cs bb q hq0 (by
      intro hc
      rw [(?_ : (bb.grid q).view.truthy = false)] at hc
      · cases hc
      · exact hz hq0)]
    exact hz hq0
  · intro hq0
    rw [hval] at hq0
    rw [hval]
    exact foldl_traverseFuel_pos_num_fix fuel cs bb q hq0 (hp hq0)

/-! ## Completeness of the cascade -/

theorem Board.traverseFuel_complete (fuel : Nat) :
    ∀ (b : Board) (tup : Pos),
      2 ≤ b.d → b.WF → inRange b.d tup → truthyZCount b < fuel →
      Settled (Board.traverseFuel fuel b tup) tup ∧
      (∀ p, (b.grid p).value = 0 → (b.grid p).view.truthy = true →
        ¬ ((Board.traverseFuel fuel b tup).grid p).view.truthy = true →
        Settled (Board.traverseFuel fuel b tup) p) := by
  induction fuel with
  | zero =>
    intro b tup _ _ _ hcount
    omega
  | succ fuel ih =>
    intro b tup hd hwf ht hcount
    obtain ⟨spec1, spec2, spec3⟩ :=
      foldl_traverseStep_spec (b.iter_neighbors tup) (Board.iter_neighbors_nodup b tup) b []
    have hcachemem := Board.cache_spec b hd hwf tup ht
    set ns := b.iter_neighbors tup with hns
    set b1 := (ns.foldl traverseStep (b, [])).1 with hb1
    set cache := (ns.foldl traverseStep (b, [])).2 with hcacheq
    have hdef : Board.traverseFuel (fuel + 1) b tup
        = cache.foldl (Board.traverseFuel fuel) b1 := rfl
    have b1d : b1.d = b.d := foldl_traverseStep_d _ _
    have b1v : ∀ q, (b1.grid q).value = (b.grid q).value :=
      fun q => (foldl_traverseStep_cell ns (b, []) q).1
    have b1wf : b1.WF := by
      intro r
      rw [(foldl_traverseStep_cell ns (b, []) r).2.1,
        (foldl_traverseStep_cell ns (b, []) r).2.2, b1d]
      exact hwf r
    have b1evolve : ∀ p, ViewEvolve (b.grid p).value (b.grid p).view (b1.grid p).view :=
      fun p => foldl_traverseStep_evolve b tup p
    have hcache_blank : ∀ c ∈ cache, (b1.grid c).view = View.blank := by
      intro c hcc
      rw [spec3, List.nil_append, List.mem_filter] at hcc
      obtain ⟨hcns, hcsave⟩ := hcc
      rw [decide_eq_true_eq, Cell.update_view_false_save_iff] at hcsave
      rw [spec2 c hcns,
        Cell.update_view_zero_truthy _ (by omega) hcsave.1 hcsave.2]
    have hS1 : Settled b1 tup := by
      intro q hqr hqa
      rw [b1d] at hqr
      constructor
      · intro hq0
        rw [b1v q] at hq0
        have hqns : q ∈ ns :=
          (Board.mem_iter_neighbors hd hwf ht q).mpr ⟨hqr, hqa, by omega⟩
        rw [spec2 q hqns]
        by_cases hqt : (b.grid q).view.truthy = true
        · rw [Cell.update_view_zero_truthy _ (by omega) hq0 hqt]
          rfl
        · rw [Cell.update_view_zero_falsy _ (by omega) hq0 hqt]
          simpa using hqt
      · intro hq0
        rw [b1v q] at hq0 ⊢
        have hqns : q ∈ ns :=
          (Board.mem_iter_neighbors hd hwf ht q).mpr ⟨hqr, hqa, by omega⟩
        rw [spec2 q hqns, Cell.update_view_numbered _ (by omega) (by omega)]
    by_cases hcnil : cache = []
    · rw [hdef, hcnil, List.foldl_nil]
      refine ⟨hS1, ?_⟩
      intro p hz htrp hfp
      by_cases hpns : p ∈ ns
      · have hpc : p ∈ cache := by
          rw [spec3, List.nil_append, List.mem_filter]
          refine ⟨hpns, ?_⟩
          rw [decide_eq_true_eq, Cell.update_view_false_save_iff]
          exact ⟨hz, htrp⟩
        rw [hcnil] at hpc
        cases hpc
      · rw [spec1 p hpns] at hfp
        exact absurd htrp hfp
    · obtain ⟨c0, hc0⟩ := List.exists_mem_of_ne_nil cache hcnil
      obtain ⟨⟨hc0r, hc0a, hc0z⟩, hc0t⟩ := hcachemem c0 hc0
      have hc0blank := hcache_blank c0 hc0
      have hcountb1 : truthyZCount b1 < truthyZCount b :=
        truthyZCount_lt_of_witness b b1 b1d b1v b1evolve c0 hc0r hc0z hc0t
          (by rw [hc0blank]; decide)
      have hcount1 : truthyZCount b1 < fuel := by omega
      have hfold : ∀ (cs : List Pos) (bb : Board),
          bb.d = b.d → bb.WF → (∀ q, (bb.grid q).value = (b.grid q).value) →
          truthyZCount bb < fuel →
          (∀ c ∈ cs, inRange b.d c) →
          (∀ c ∈ cs, Settled (cs.foldl (Board.traverseFuel fuel) bb) c) ∧
          (∀ p, (bb.grid p).value = 0 → (bb.grid p).view.truthy = true →
            ¬ ((cs.foldl (Board.traverseFuel fuel) bb).grid p).view.truthy = true →
            Settled (cs.foldl (Board.traverseFuel fuel) bb) p) := by
        intro cs
        induction cs with
        | nil =>
          intro bb _ _ _ _ _
          refine ⟨fun c hcc => absurd hcc (List.not_mem_nil c), ?_⟩
          intro p _ htrp hfp
          rw [List.foldl_nil] at hfp
          exact absurd htrp hfp
        | cons c cs ih2 =>
          intro bb hbd hbwf hbv hbc hcs
          obtain ⟨hSc, hNew⟩ := ih bb c (by rwa [hbd]) hbwf
            (by rw [hbd]; exact hcs c (List.mem_cons_self c cs)) hbc
          rw [List.foldl_cons]
          set bb2 := Board.traverseFuel fuel bb c with hbb2
          have hbb2d : bb2.d = b.d := (Board.traverseFuel_d fuel bb c).trans hbd
          have hbb2wf : bb2.WF := Board.traverseFuel_WF fuel bb c hbwf
          have hbb2v : ∀ q, (bb2.grid q).value = (b.grid q).value :=
            fun q => ((Board.traverseFuel_cell fuel bb c q).1).trans (hbv q)
          have hbb2c : truthyZCount bb2 < fuel :=
            lt_of_le_of_lt (Board.traverseFuel_count_le fuel bb c) hbc
          obtain ⟨hS2, hNew2⟩ := ih2 bb2 hbb2d hbb2wf hbb2v hbb2c
            (fun r hr => hcs r (List.mem_cons_of_mem c hr))
          constructor
          · intro c2 hc2
            rcases List.mem_cons.mp hc2 with h1 | h2
            · subst h1
              exact Settled_foldl_preserved fuel cs bb2 c2 hSc
            · exact hS2 c2 h2
          · intro p hz htrp hfp
            by_cases hmid : (bb2.grid p).view.truthy = true
            · refine hNew2 p ?_ hmid hfp
              rw [hbb2v p, ← hbv p]
              exact hz
            · exact Settled_foldl_preserved fuel cs bb2 p (hNew p hz htrp hmid)
      obtain ⟨hS2, hNew2⟩ := hfold cache b1 b1d b1wf b1v hcount1
        (fun c hcc => (hcachemem c hcc).1.1)
      rw [hdef]
      constructor
      · exact Settled_foldl_preserved fuel cache b1 tup hS1
      · intro p hz htrp hfp
        by_cases hmid : (b1.grid p).view.truthy = true
        · exact hNew2 p (by rw [b1v p]; exact hz) hmid hfp
        · by_cases hpns : p ∈ ns
          · have hpc : p ∈ cache := by
              rw [spec3, List.nil_append, List.mem_filter]
              refine ⟨hpns, ?_⟩
              rw [decide_eq_true_eq, Cell.update_view_false_save_iff]
              exact ⟨hz, htrp⟩
            exact hS2 p hpc
          · rw [spec1 p hpns] at hmid
            exact absurd htrp hmid

/-! ## Region facts -/

theorem ZReach_zero (b : Board) (s p : Pos) (h0 : (b.grid s).value = 0)
    (h : ZReach b s p) : (b.grid p).value = 0 := by
  induction h with
  | refl => exact h0
  | tail _ hstep _ => exact hstep.2.2

theorem ZReach_inRange (b : Board) (s p : Pos) (h0 : inRange b.d s)
    (h : ZReach b s p) : inRange b.d p := by
  induction h with
  | refl => exact h0
  | tail _ hstep _ => exact hstep.1

theorem Board.placeMine_view (b : Board) (m p : Pos) :
    ((b.placeMine m).grid p).view = (b.grid p).view := by
  unfold Board.placeMine Board.increment
  rw [foldl_incStep_view]
  by_cases hp : p = m
  · subst hp
    rw [Board.setCell_grid_same]
  · rw [Board.setCell_grid_other _ _ _ _ hp]

theorem Board.placeMines_view (ms : List Pos) :
    ∀ (b : Board) (p : Pos), ((b.placeMines ms).grid p).view = (b.grid p).view := by
  induction ms with
  | nil => intro b p; rfl
  | cons m ms ih =>
    intro b p
    rw [Board.placeMines, ih, Board.placeMine_view]

theorem mkBoard_view_O (d diff : Nat) (mines : List Pos) (p : Pos) :
    ((mkBoard d diff mines).grid p).view = View.O :=
  Board.placeMines_view mines (Board.init d diff) p

theorem mkBoard_WF (d diff : Nat) (mines : List Pos) : (mkBoard d diff mines).WF :=
  Board.placeMines_WF mines (Board.init d diff) (fun _ => ⟨rfl, rfl⟩)

theorem ZReach_blank_ind (b b1 : Board) (s : Pos)
    (hs_blank : (b1.grid s).view = View.blank)
    (hstep_blank : ∀ q p, ZReach b s q → (b1.grid q).view = View.blank →
        zstep b q p → (b1.grid p).view = View.blank) :
    ∀ p, ZReach b s p → (b1.grid p).view = View.blank := by
  intro p h
  induction h with
  | refl => exact hs_blank
  | tail hq hstep ihq => exact hstep_blank _ _ hq ihq hstep

/-! ## Claim C6: the cascade reveals the region and its border -/

/-- C6 (amended): on a well-formed board whose zero region through the target
is entirely unrevealed (as in every state reachable by play), a reveal of a
hidden zero cell blanks exactly the region, numbers the bordering positive
cells, changes no mine, changes nothing else, and leaves `left` alone. -/
theorem C6_cascade_region (b : Board) (s : Pos)
    (hd : 2 ≤ b.d) (hwf : b.WF) (hs_in : inRange b.d s)
    (hs_zero : (b.grid s).value = 0) (hs_hidden : (b.grid s).view = View.O)
    (hregion : ∀ p, ZReach b s p → (b.grid p).view.truthy = true) :
    ∃ b1, b.update_view s false = Except.ok (b1, b1.won) ∧
      b1.d = b.d ∧ b1.left = b.left ∧
      (∀ p, (b1.grid p).value = (b.grid p).value) ∧
      (∀ p, ZReach b s p → (b1.grid p).view = View.blank) ∧
      (∀ p, inRange b.d p → 0 < (b.grid p).value →
        (∃ q, ZReach b s q ∧ adjacent q p) →
        (b1.grid p).view = View.num ((b.grid p).value)) ∧
      (∀ p, (b.grid p).value < 0 → b1.grid p = b.grid p) ∧
      (∀ p, ¬ ZReach b s p → (∀ q, ZReach b s q → ¬ adjacent q p) →
        b1.grid p = b.grid p) := by
  have h0 : ¬ (b.grid s).value < 0 := by omega
  have htr : (b.grid s).view.truthy = true := by rw [hs_hidden]; rfl
  set bset := b.setCell s { b.grid s with view := View.blank } with hbset
  have hupd : b.update_view s false
      = Except.ok (bset.traverse_empty s, (bset.traverse_empty s).won) := by
    rw [Board.update_view_cascade_eq b s hs_in h0 hs_zero htr]
    dsimp only
    rw [Board.applyLeft_no_M _ _ _ (by rw [hs_hidden]; intro h; cases h)
      (by intro h; cases h)]
  set b1 := bset.traverse_empty s with hb1
  have hsetd : bset.d = b.d := Board.setCell_d b s _
  have hsetv : ∀ p, (bset.grid p).value = (b.grid p).value := by
    intro p
    by_cases hp : p = s
    · subst hp
      rw [hbset, Board.setCell_grid_same]
    · rw [hbset, Board.setCell_grid_other _ _ _ _ hp]
  have hsetview : ∀ p, p ≠ s → (bset.grid p).view = (b.grid p).view := by
    intro p hp
    rw [hbset, Board.setCell_grid_other _ _ _ _ hp]
  have hsetview_s : (bset.grid s).view = View.blank := by
    rw [hbset, Board.setCell_grid_same]
  have hsetwf : bset.WF :=
    Board.setCell_WF b s _ hwf rfl rfl
  have hreach_iff : ∀ p, ZReach bset s p ↔ ZReach b s p :=
    fun p => ZReach_congr hsetd hsetv s p
  have hb1fuel : b1 = Board.traverseFuel (bset.d * bset.d + 1) bset s := rfl
  have hcount : truthyZCount bset < bset.d * bset.d + 1 :=
    Nat.lt_succ_of_le (truthyZCount_le bset)
  obtain ⟨hSs, hNew⟩ := Board.traverseFuel_complete (bset.d * bset.d + 1) bset s
    (by rwa [hsetd]) hsetwf (by rwa [hsetd]) hcount
  rw [← hb1fuel] at hSs hNew
  have hb1d : b1.d = b.d := by
    rw [hb1fuel, Board.traverseFuel_d, hsetd]
  have hb1v : ∀ p, (b1.grid p).value = (b.grid p).value := by
    intro p
    rw [hb1fuel, (Board.traverseFuel_cell _ bset s p).1, hsetv p]
  -- every region cell ends blank
  have hblank : ∀ p, ZReach b s p → (b1.grid p).view = View.blank := by
    apply ZReach_blank_ind b b1 s
    · rw [hb1fuel, Board.traverseFuel_zero_falsy_fix _ bset s s
        (by rw [hsetv s]; exact hs_zero)
        (by rw [hsetview_s]; decide), hsetview_s]
    · intro q p' hq ihq hstep
      obtain ⟨hp_in, hq_adj, hp_zero⟩ := hstep
      -- the predecessor q is settled in the final board
      have hSq : Settled b1 q := by
        by_cases hqs : q = s
        · subst hqs
          exact hSs
        · have hqt : (bset.grid q).view.truthy = true := by
            rw [hsetview q hqs]
            exact hregion q hq
          refine hNew q ?_ hqt ?_
          · rw [hsetv q]
            exact ZReach_zero b s q hs_zero hq
          · rw [ihq]
            decide
      have hfalsy : (b1.grid p').view.truthy = false := by
        have := (hSq p' (by rwa [hb1d]) hq_adj).1
        exact this (by rw [hb1v p']; exact hp_zero)
      by_cases hps : p' = s
      · rw [hps, hb1fuel, Board.traverseFuel_zero_falsy_fix _ bset s s
          (by rw [hsetv s]; exact hs_zero)
          (by rw [hsetview_s]; decide), hsetview_s]
      · have hpt : (bset.grid p').view.truthy = true := by
          rw [hsetview p' hps]
          exact hregion p' (Relation.ReflTransGen.tail hq ⟨hp_in, hq_adj, hp_zero⟩)
        have hz' : (bset.grid p').value = 0 := by
          rw [hsetv p']
          exact hp_zero
        rcases Board.traverseFuel_zero_cases (bset.d * bset.d + 1) bset s p' hz'
          with hcase | ⟨_, hcase⟩
        · rw [hb1fuel] at hfalsy ⊢
          rw [hcase] at hfalsy
          rw [hpt] at hfalsy
          cases hfalsy
        · rw [hb1fuel]
          exact hcase
  -- every region cell is settled in the final board
  have hsettled : ∀ q, ZReach b s q → Settled b1 q := by
    intro q hq
    by_cases hqs : q = s
    · subst hqs
      exact hSs
    · refine hNew q ?_ ?_ ?_
      · rw [hsetv q]
        exact ZReach_zero b s q hs_zero hq
      · rw [hsetview q hqs]
        exact hregion q hq
      · rw [hblank q hq]
        decide
  refine ⟨b1, hupd, hb1d, ?_, hb1v, hblank, ?_, ?_, ?_⟩
  · rw [hb1fuel, Board.traverseFuel_left, hbset, Board.setCell_left]
  · -- bordering positive cells show their number
    intro p hp_in hp_pos ⟨q, hq_reach, hq_adj⟩
    have := (hsettled q hq_reach p (by rwa [hb1d]) hq_adj).2
    rw [hb1v p] at this
    exact this hp_pos
  · -- mine cells are untouched
    intro p hp_mine
    have hps : p ≠ s := by
      intro h
      rw [h, hs_zero] at hp_mine
      omega
    rw [hb1fuel, Board.traverseFuel_mine_fix _ bset s p (by rwa [hsetv p]),
      hbset, Board.setCell_grid_other _ _ _ _ hps]
  · -- cells neither in the region nor bordering it are untouched
    intro p hp_nr hp_nb
    have hps : p ≠ s := by
      intro h
      exact hp_nr (h ▸ Relation.ReflTransGen.refl)
    have hframe := Board.traverseFuel_frame (bset.d * bset.d + 1) bset s
      (by rwa [hsetd]) hsetwf (by rwa [hsetd]) p
    by_cases hch : (Board.traverseFuel (bset.d * bset.d + 1) bset s).grid p
        = bset.grid p
    · rw [hb1fuel, hch, hbset, Board.setCell_grid_other _ _ _ _ hps]
    · obtain ⟨_, _, q, hq_reach, hq_adj⟩ := hframe hch
      have : ZReach b s q := (hreach_iff q).mp hq_reach
      exact absurd hq_adj (hp_nb q this)

/-- C6 (witness): on the freshly constructed example board every view is
hidden, so the region hypothesis holds and revealing the zero cell `(3, 0)`
floods its region. -/
theorem C6_cascade_region_witness :
    ∃ b1, exBoard.update_view (3, 0) false = Except.ok (b1, b1.won) ∧
      b1.d = exBoard.d ∧ b1.left = exBoard.left ∧
      (∀ p, (b1.grid p).value = (exBoard.grid p).value) ∧
      (∀ p, ZReach exBoard (3, 0) p → (b1.grid p).view = View.blank) ∧
      (∀ p, inRange exBoard.d p → 0 < (exBoard.grid p).value →
        (∃ q, ZReach exBoard (3, 0) q ∧ adjacent q p) →
        (b1.grid p).view = View.num ((exBoard.grid p).value)) ∧
      (∀ p, (exBoard.grid p).value < 0 → b1.grid p = exBoard.grid p) ∧
      (∀ p, ¬ ZReach exBoard (3, 0) p →
        (∀ q, ZReach exBoard (3, 0) q → ¬ adjacent q p) →
        b1.grid p = exBoard.grid p) :=
  C6_cascade_region exBoard (3, 0) (by decide) (mkBoard_WF 5 0 exMines)
    (by decide) (by decide) (by decide)
    (fun p _ => by
      show ((mkBoard 5 0 exMines).grid p).view.truthy = true
      rw [mkBoard_view_O]
      rfl)

/-- C6 (counterexample): on a board state where part of the zero region is
already revealed blank, the cascade does not reach past it: `(2, 2)` is in
the zero region of the hidden zero cell `(0, 0)` but stays hidden after the
update, so the claim as stated fails for that board. -/
theorem C6_counterexample :
    (bCE.grid (0, 0)).value = 0 ∧ (bCE.grid (0, 0)).view = View.O ∧
    ¬ (bCE.grid (0, 0)).value < 0 ∧
    ZReach bCE (0, 0) (2, 2) ∧
    ((bCE.updateState (0, 0) false).grid (2, 2)).view = View.O ∧
    View.O ≠ View.blank := by
  refine ⟨by decide, by decide, by decide, ?_, by decide, by decide⟩
  have h1 : zstep bCE (0, 0) (1, 1) := by decide
  have h2 : zstep bCE (1, 1) (2, 2) := by decide
  exact Relation.ReflTransGen.tail (Relation.ReflTransGen.single h1) h2
